import Mathlib

/-!
# Image filters of `helpers.c`: grayscale, reflect, blur, edges

A shallow embedding of the four filters of `src/helpers.c` and proofs about them.

* An image is a list of rows, each a list of `RGBTRIPLE`. The C functions receive
  `height`, `width` and the array separately; so do the embedded ones, and every
  array access is checked against the actual allocation (`none` is a fault).
* The C loops mutate the image in place. The embedding threads the image through
  `forLoop`, one iteration after the other, in the order of the source.
* `int` arithmetic on accumulators is reduced with `wrapInt` (32-bit two's
  complement); stores into a channel reduce modulo 256 (`toBYTE`).
* Floating point is modelled by exact arithmetic: `x / y` by the quotient in `ℚ`,
  `round` by `cRound`, and `round(sqrt(x))` by `roundSqrt`. The doc comments of
  these definitions say why the exact value is the one the C code computes on the
  values that reach them.
* `blur` and `edges` begin by declaring the variable-length array `copy[height][width]`.
  C requires both bounds of such an array to be greater than zero. `blur` and `edges`
  below describe the functions once `copy` is declared; `declareCopy` is the declaration
  with its requirement, and `blurCall`, `edgesCall` are the calls from the declaration on.
-/

namespace Helpers

/-! ## Data model -/

/-- Modelled from the spec: the 8-bit unsigned channel type `BYTE` of the header
(`helpers.h` and what it includes are not among the sources); "8-bit unsigned channel
values ... range [0,255]". -/
abbrev BYTE := Fin 256

/-- Modelled from the spec: the pixel type `RGBTRIPLE` of the header, "three independent
8-bit unsigned channel values {red, green, blue}". The field names are the ones
`helpers.c` uses. -/
structure RGBTRIPLE where
  rgbtBlue : BYTE
  rgbtGreen : BYTE
  rgbtRed : BYTE
deriving DecidableEq, Repr

instance : Inhabited RGBTRIPLE := ⟨⟨0, 0, 0⟩⟩

/-- An image in memory: the rows of `RGBTRIPLE image[height][width]`. -/
abbrev Image := List (List RGBTRIPLE)

/-- The allocation matches the declared dimensions: `height` rows of `width` pixels. -/
def hasDims (image : Image) (height width : Nat) : Prop :=
  image.length = height ∧ ∀ row ∈ image, row.length = width

instance (image : Image) (height width : Nat) : Decidable (hasDims image height width) := by
  unfold hasDims
  infer_instance

/-! ## Machine arithmetic -/

/-- The value of a C `int` expression: the exact result reduced to 32-bit two's complement. -/
def wrapInt (x : Int) : Int := (x + 2147483648) % 4294967296 - 2147483648

/-- Conversion of an `int` to a `BYTE` on assignment to a channel: reduction modulo 256. -/
def toBYTE (x : Int) : BYTE := ⟨(x % 256).toNat, by omega⟩

/-- Promotion of a `BYTE` to `int` when a channel is read. -/
def ofBYTE (b : BYTE) : Int := (b.val : Int)

/-- C `round`: the nearest integer, halves away from zero, then the cast `(int)`.
The argument is the exact value of the quotient the source passes: the floating-point
quotient of two small integers differs from the exact one by far less than the distance
of the exact quotient to the nearest half-integer (at least `1 / (2 * divisor)`) unless
the exact quotient is itself a half-integer, which floating point represents exactly. -/
def cRound (x : ℚ) : Int := if 0 ≤ x then ⌊x + 1 / 2⌋ else ⌈x - 1 / 2⌉

/-- Newton iteration for the integer square root, at most `fuel` steps. -/
def sqrtIter (n : Nat) : Nat → Nat → Nat
  | 0, guess => guess
  | fuel + 1, guess =>
    let next := (guess + n / guess) / 2
    if next < guess then sqrtIter n fuel next else guess

/-- Integer square root: the largest `s` with `s * s ≤ n` (it is `Nat.sqrt`, see
`isqrt_eq`, written so that it evaluates by unfolding). -/
def isqrt (n : Nat) : Nat := if n ≤ 1 then n else sqrtIter n (n / 2) (n / 2)

/-- The C expression `(int) round(sqrt(x))` for a `double` `x` that holds an integer:
the integer nearest to the square root. `sqrt` of a negative number is NaN, whose
conversion to `int` is undefined (`none`). For `x` an integer, `sqrt x` is never a
half-integer and lies at least `1 / (8 * sqrt x)` away from one, far more than the
rounding error of `sqrt` for the values below `2 ^ 53` that reach it. -/
def roundSqrt (x : Int) : Option Int :=
  if x < 0 then none
  else
    let s := isqrt x.toNat
    some (if s * s + s < x.toNat then ((s + 1 : Nat) : Int) else (s : Int))

/-- Helper of `helpers.c`: cap a value at 255. -/
def cap255 (value : Int) : Int := if value > 255 then 255 else value

/-! ## Memory access and loops -/

/-- Read `image[i][j]`; `none` outside the allocation. -/
def readPx (image : Image) (i j : Nat) : Option RGBTRIPLE :=
  match image[i]? with
  | none => none
  | some row => row[j]?

/-- Assign `image[i][j] = p`; `none` outside the allocation. -/
def writePx (image : Image) (i j : Nat) (p : RGBTRIPLE) : Option Image :=
  match image[i]? with
  | none => none
  | some row => if j < row.length then some (image.set i (row.set j p)) else none

/-- Assign `image[i][j].rgbtRed = v`. -/
def storeRed (image : Image) (i j : Nat) (v : Int) : Option Image :=
  (readPx image i j).bind fun p => writePx image i j { p with rgbtRed := toBYTE v }

/-- Assign `image[i][j].rgbtGreen = v`. -/
def storeGreen (image : Image) (i j : Nat) (v : Int) : Option Image :=
  (readPx image i j).bind fun p => writePx image i j { p with rgbtGreen := toBYTE v }

/-- Assign `image[i][j].rgbtBlue = v`. -/
def storeBlue (image : Image) (i j : Nat) (v : Int) : Option Image :=
  (readPx image i j).bind fun p => writePx image i j { p with rgbtBlue := toBYTE v }

/-- The loop `for (int k = 0; k < n; k++) body`, threading the state through the
iterations `0, 1, ..., n - 1`; a fault in an iteration is a fault of the loop. -/
def forLoop {σ : Type} : Nat → (Nat → σ → Option σ) → σ → Option σ
  | 0, _, s => some s
  | n + 1, body, s => (forLoop n body s).bind (body n)

/-- The loop `for (int d = -1; d <= 1; d++) body`. -/
def forOffsets {σ : Type} (body : Int → σ → Option σ) (s : σ) : Option σ :=
  (body (-1) s).bind fun s1 => (body 0 s1).bind fun s2 => body 1 s2

/-! ## grayscale -/

/-- The value `gray` computed for a pixel: `(int) round((r + g + b) / 3.0)`. -/
def grayValue (p : RGBTRIPLE) : Int :=
  let r := ofBYTE p.rgbtRed
  let g := ofBYTE p.rgbtGreen
  let b := ofBYTE p.rgbtBlue
  cRound ((wrapInt (wrapInt (r + g) + b) : ℚ) / 3)

/-- Body of the inner loop of `grayscale`. -/
def grayscaleBody (image : Image) (i j : Nat) : Option Image :=
  (readPx image i j).bind fun p =>
    let gray := grayValue p
    (storeRed image i j gray).bind fun image1 =>
    (storeGreen image1 i j gray).bind fun image2 =>
    storeBlue image2 i j gray

/-- Convert image to grayscale. -/
def grayscale (height width : Nat) (image : Image) : Option Image :=
  forLoop height (fun i image1 =>
    forLoop width (fun j image2 => grayscaleBody image2 i j) image1) image

/-! ## reflect -/

/-- Body of the inner loop of `reflect`: swap `image[i][j]` and `image[i][width - j - 1]`.
The loop guard `j < width / 2` keeps `width - j - 1` non-negative, so the truncated
subtraction of `Nat` is the `int` one. -/
def reflectBody (width : Nat) (image : Image) (i j : Nat) : Option Image :=
  (readPx image i j).bind fun tmp =>
  (readPx image i (width - j - 1)).bind fun q =>
  (writePx image i j q).bind fun image1 =>
  writePx image1 i (width - j - 1) tmp

/-- Reflect image horizontally. -/
def reflect (height width : Nat) (image : Image) : Option Image :=
  forLoop height (fun i image1 =>
    forLoop (width / 2) (fun j image2 => reflectBody width image2 i j) image1) image

/-! ## The scratch copy of blur and edges -/

/-- The array `RGBTRIPLE copy[height][width]` before it is filled. Its contents are
indeterminate in C; every cell is assigned before it is read, so a fixed filling is used.
This is the array of a declaration that succeeded: the declaration itself, which is
undefined when a bound is 0, is `declareCopy`. -/
def blankCopy (height width : Nat) : Image :=
  List.replicate height (List.replicate width default)

/-- The copy loop: `copy[i][j] = image[i][j]` for all `i < height`, `j < width`. -/
def copyImage (height width : Nat) (image : Image) : Option Image :=
  forLoop height (fun i copy1 =>
    forLoop width (fun j copy2 =>
      (readPx image i j).bind fun p => writePx copy2 i j p) copy1) (blankCopy height width)

/-- The bounds test `ni >= 0 && ni < height && nj >= 0 && nj < width`. -/
def inBounds (height width : Nat) (ni nj : Int) : Bool :=
  decide (0 ≤ ni) && decide (ni < height) && decide (0 ≤ nj) && decide (nj < width)

/-! ## blur -/

/-- The accumulators of `blur` for one pixel. -/
structure BlurAcc where
  redSum : Int
  greenSum : Int
  blueSum : Int
  count : Int
deriving DecidableEq, Repr

/-- Body of the neighbour loops of `blur` for the offset `(di, dj)`. -/
def blurSample (height width : Nat) (copy : Image) (i j : Nat) (di dj : Int)
    (acc : BlurAcc) : Option BlurAcc :=
  let ni : Int := i + di
  let nj : Int := j + dj
  if inBounds height width ni nj then
    (readPx copy ni.toNat nj.toNat).bind fun p =>
      some { redSum := wrapInt (acc.redSum + ofBYTE p.rgbtRed)
             greenSum := wrapInt (acc.greenSum + ofBYTE p.rgbtGreen)
             blueSum := wrapInt (acc.blueSum + ofBYTE p.rgbtBlue)
             count := wrapInt (acc.count + 1) }
  else some acc

/-- The accumulators of `blur` after the 3x3 box around `(i, j)` has been visited. -/
def blurAt (height width : Nat) (copy : Image) (i j : Nat) : Option BlurAcc :=
  forOffsets (fun di acc1 =>
    forOffsets (fun dj acc2 => blurSample height width copy i j di dj acc2) acc1) ⟨0, 0, 0, 0⟩

/-- The expression `(int) round((float) sum / count)`; a zero `count` is a fault. -/
def roundMean (sum count : Int) : Option Int :=
  if count = 0 then none else some (cRound ((sum : ℚ) / (count : ℚ)))

/-- The three integers `blur` assigns to the red, green and blue channel of `(i, j)`. -/
def blurValues (height width : Nat) (copy : Image) (i j : Nat) : Option (Int × Int × Int) :=
  (blurAt height width copy i j).bind fun acc =>
  (roundMean acc.redSum acc.count).bind fun r =>
  (roundMean acc.greenSum acc.count).bind fun g =>
  (roundMean acc.blueSum acc.count).bind fun b => some (r, g, b)

/-- Body of the pixel loops of `blur`. -/
def blurBody (height width : Nat) (copy image : Image) (i j : Nat) : Option Image :=
  (blurValues height width copy i j).bind fun v =>
  (storeRed image i j v.1).bind fun image1 =>
  (storeGreen image1 i j v.2.1).bind fun image2 =>
  storeBlue image2 i j v.2.2

/-- Blur image (box blur, using a copy so calculations don't affect each other). -/
def blur (height width : Nat) (image : Image) : Option Image :=
  (copyImage height width image).bind fun copy =>
    forLoop height (fun i image1 =>
      forLoop width (fun j image2 => blurBody height width copy image2 i j) image1) image

/-! ## edges -/

/-- Sobel kernel `Gx` of `edges`. -/
def Gx : List (List Int) := [[-1, 0, 1], [-2, 0, 2], [-1, 0, 1]]

/-- Sobel kernel `Gy` of `edges`. -/
def Gy : List (List Int) := [[-1, -2, -1], [0, 0, 0], [1, 2, 1]]

/-- Read `K[ki][kj]` of a kernel; `none` outside the array. -/
def kernelAt (K : List (List Int)) (ki kj : Int) : Option Int :=
  if 0 ≤ ki ∧ 0 ≤ kj then
    match K[ki.toNat]? with
    | none => none
    | some row => row[kj.toNat]?
  else none

/-- The accumulators of `edges` for one pixel. -/
structure SobelAcc where
  gxRed : Int
  gxGreen : Int
  gxBlue : Int
  gyRed : Int
  gyGreen : Int
  gyBlue : Int
deriving DecidableEq, Repr

/-- Body of the neighbour loops of `edges` for the offset `(di, dj)`. -/
def edgesSample (height width : Nat) (copy : Image) (i j : Nat) (di dj : Int)
    (acc : SobelAcc) : Option SobelAcc :=
  let ni : Int := i + di
  let nj : Int := j + dj
  let ki : Int := di + 1
  let kj : Int := dj + 1
  if inBounds height width ni nj then
    (readPx copy ni.toNat nj.toNat).bind fun p =>
    (kernelAt Gx ki kj).bind fun kx =>
    (kernelAt Gy ki kj).bind fun ky =>
      some { gxRed := wrapInt (acc.gxRed + wrapInt (ofBYTE p.rgbtRed * kx))
             gxGreen := wrapInt (acc.gxGreen + wrapInt (ofBYTE p.rgbtGreen * kx))
             gxBlue := wrapInt (acc.gxBlue + wrapInt (ofBYTE p.rgbtBlue * kx))
             gyRed := wrapInt (acc.gyRed + wrapInt (ofBYTE p.rgbtRed * ky))
             gyGreen := wrapInt (acc.gyGreen + wrapInt (ofBYTE p.rgbtGreen * ky))
             gyBlue := wrapInt (acc.gyBlue + wrapInt (ofBYTE p.rgbtBlue * ky)) }
  else some acc

/-- The accumulators of `edges` after the 3x3 neighbourhood of `(i, j)` has been visited. -/
def sobelAt (height width : Nat) (copy : Image) (i j : Nat) : Option SobelAcc :=
  forOffsets (fun di acc1 =>
    forOffsets (fun dj acc2 => edgesSample height width copy i j di dj acc2) acc1)
    ⟨0, 0, 0, 0, 0, 0⟩

/-- The expression `cap255((int) round(sqrt((double) gx * gx + (double) gy * gy)))`.
The products and the sum are taken in `double`, which is exact below `2 ^ 53`. -/
def magnitude (gx gy : Int) : Option Int :=
  (roundSqrt (gx * gx + gy * gy)).map cap255

/-- The three integers `edges` assigns to the red, green and blue channel of `(i, j)`. -/
def edgesValues (height width : Nat) (copy : Image) (i j : Nat) : Option (Int × Int × Int) :=
  (sobelAt height width copy i j).bind fun acc =>
  (magnitude acc.gxRed acc.gyRed).bind fun r =>
  (magnitude acc.gxGreen acc.gyGreen).bind fun g =>
  (magnitude acc.gxBlue acc.gyBlue).bind fun b => some (r, g, b)

/-- Body of the pixel loops of `edges`. -/
def edgesBody (height width : Nat) (copy image : Image) (i j : Nat) : Option Image :=
  (edgesValues height width copy i j).bind fun v =>
  (storeRed image i j v.1).bind fun image1 =>
  (storeGreen image1 i j v.2.1).bind fun image2 =>
  storeBlue image2 i j v.2.2

/-- Detect edges using the Sobel operator. -/
def edges (height width : Nat) (image : Image) : Option Image :=
  (copyImage height width image).bind fun copy =>
    forLoop height (fun i image1 =>
      forLoop width (fun j image2 => edgesBody height width copy image2 i j) image1) image

/-! ## The declaration of the scratch copy -/

/-- The declaration `RGBTRIPLE copy[height][width]`, the first statement of `blur`
(helpers.c:50) and of `edges` (helpers.c:92). `copy` is a variable-length array, and each
bound of one must be greater than zero when the declaration is reached: with `height = 0`
or `width = 0` the behaviour is undefined (`none`). Otherwise the array exists, with
indeterminate contents (`blankCopy`). -/
def declareCopy (height width : Nat) : Option Image :=
  if height = 0 ∨ width = 0 then none else some (blankCopy height width)

/-- A call of `blur` from its first statement on: the declaration of `copy`, then the copy
loop and the pixel loops, which are `blur`. -/
def blurCall (height width : Nat) (image : Image) : Option Image :=
  (declareCopy height width).bind fun _ => blur height width image

/-- A call of `edges` from its first statement on: the declaration of `copy`, then the
copy loop and the pixel loops, which are `edges`. -/
def edgesCall (height width : Nat) (image : Image) : Option Image :=
  (declareCopy height width).bind fun _ => edges height width image

/-! ## Definitions used to state the properties -/

/-- The pixel `grayscale` leaves in place of `p`. -/
def grayPixel (p : RGBTRIPLE) : RGBTRIPLE :=
  ⟨toBYTE (grayValue p), toBYTE (grayValue p), toBYTE (grayValue p)⟩

/-- A pixel given by its red, green and blue values. -/
def rgb (r g b : BYTE) : RGBTRIPLE := { rgbtRed := r, rgbtGreen := g, rgbtBlue := b }

/-- A 3x3 image, black but for a pure red centre. -/
def redCentre : Image :=
  [[rgb 0 0 0, rgb 0 0 0, rgb 0 0 0],
   [rgb 0 0 0, rgb 255 0 0, rgb 0 0 0],
   [rgb 0 0 0, rgb 0 0 0, rgb 0 0 0]]

/-- A 2x3 image of six different pixels. -/
def sixPixels : Image :=
  [[rgb 1 2 3, rgb 4 5 6, rgb 7 8 9], [rgb 10 20 30, rgb 255 0 0, rgb 9 9 8]]

/-- A colour channel. -/
inductive Channel where
  | red
  | green
  | blue
deriving DecidableEq, Repr

/-- The value of a channel of a pixel. -/
def RGBTRIPLE.chan (p : RGBTRIPLE) : Channel → Nat
  | Channel.red => p.rgbtRed.val
  | Channel.green => p.rgbtGreen.val
  | Channel.blue => p.rgbtBlue.val

/-- The nine offsets `(di, dj)` with `di, dj ∈ {-1, 0, 1}`, in the order in which the
neighbour loops of `blur` and `edges` visit them. -/
def offsets : List (Int × Int) :=
  [(-1, -1), (-1, 0), (-1, 1), (0, -1), (0, 0), (0, 1), (1, -1), (1, 0), (1, 1)]

/-- The offsets of a list that lead from `(i, j)` to a position inside the grid. -/
def inside (height width i j : Nat) (offs : List (Int × Int)) : List (Int × Int) :=
  offs.filter fun d =>
    decide (0 ≤ (i : Int) + d.1 ∧ (i : Int) + d.1 < height ∧
      0 ≤ (j : Int) + d.2 ∧ (j : Int) + d.2 < width)

/-- The positions `(i + di, j + dj)` reached from `(i, j)` by the offsets of a list. -/
def positions (i j : Nat) (offs : List (Int × Int)) : List (Nat × Nat) :=
  offs.map fun d => (((i : Int) + d.1).toNat, ((j : Int) + d.2).toNat)

/-- The in-bounds positions `(i + di, j + dj)`, `di, dj ∈ {-1, 0, 1}`, of the 3x3 box
around `(i, j)`. -/
def neighbours (height width i j : Nat) : List (Nat × Nat) :=
  positions i j (inside height width i j offsets)

/-- The value of a channel at a position of a grid (0 outside the allocation). -/
def chanAt (c : Channel) (G : Image) (q : Nat × Nat) : Nat :=
  match readPx G q.1 q.2 with
  | some p => p.chan c
  | none => 0

/-- The sum of a channel over a list of positions of a grid. -/
def chanSum (c : Channel) (G : Image) (ps : List (Nat × Nat)) : Nat :=
  (ps.map (chanAt c G)).sum

/-- The mean `sum / count` rounded to the nearest integer, halves up:
`floor((2 * sum + count) / (2 * count))`. -/
def roundedMean (sum count : Nat) : Nat := (2 * sum + count) / (2 * count)

/-- The rounded mean of a channel of the grid `G` over the in-bounds part of the 3x3 box
around `(i, j)`. -/
def boxMean (c : Channel) (G : Image) (height width i j : Nat) : Nat :=
  roundedMean (chanSum c G (neighbours height width i j)) (neighbours height width i j).length

/-- The neighbour loops of `blur` as one pass over a list of offsets. -/
def blurFold (height width : Nat) (copy : Image) (i j : Nat) :
    List (Int × Int) → BlurAcc → Option BlurAcc
  | [], acc => some acc
  | d :: rest, acc =>
    (blurSample height width copy i j d.1 d.2 acc).bind (blurFold height width copy i j rest)

/-- The pixel that `blur` writes at `(i, j)`, from the grid `G` it started with. -/
def blurPixel (G : Image) (height width i j : Nat) : RGBTRIPLE :=
  ⟨toBYTE (boxMean Channel.blue G height width i j),
   toBYTE (boxMean Channel.green G height width i j),
   toBYTE (boxMean Channel.red G height width i j)⟩

/-- The weight of a kernel for the offset `(di, dj)`: its entry in row `di + 1` and
column `dj + 1` (0 outside the kernel). -/
def weight (K : List (List Int)) (d : Int × Int) : Int :=
  (kernelAt K (d.1 + 1) (d.2 + 1)).getD 0

/-- The value of a channel of the grid at the position `(a, b)`, positions outside the
grid counting as 0. -/
def valueAt (c : Channel) (G : Image) (height width : Nat) (a b : Int) : Int :=
  if 0 ≤ a ∧ a < height ∧ 0 ≤ b ∧ b < width then (chanAt c G (a.toNat, b.toNat) : Int) else 0

/-- The weighted sum of a channel of the grid over the positions reached from `(i, j)` by
a list of offsets, each weighted by the kernel entry of its offset. -/
def convolveOver (K : List (List Int)) (c : Channel) (G : Image) (height width i j : Nat)
    (offs : List (Int × Int)) : Int :=
  (offs.map fun d =>
    weight K d * valueAt c G height width ((i : Int) + d.1) ((j : Int) + d.2)).sum

/-- The nine-term weighted sum of a channel over the 3x3 neighbourhood of `(i, j)`. -/
def convolve (K : List (List Int)) (c : Channel) (G : Image) (height width i j : Nat) : Int :=
  convolveOver K c G height width i j offsets

/-- The neighbour loops of `edges` as one pass over a list of offsets. -/
def edgesFold (height width : Nat) (copy : Image) (i j : Nat) :
    List (Int × Int) → SobelAcc → Option SobelAcc
  | [], acc => some acc
  | d :: rest, acc =>
    (edgesSample height width copy i j d.1 d.2 acc).bind (edgesFold height width copy i j rest)

/-- All six accumulators lie between `-M` and `M`. -/
def SobelAcc.within (acc : SobelAcc) (M : Int) : Prop :=
  (-M ≤ acc.gxRed ∧ acc.gxRed ≤ M) ∧ (-M ≤ acc.gxGreen ∧ acc.gxGreen ≤ M) ∧
  (-M ≤ acc.gxBlue ∧ acc.gxBlue ≤ M) ∧ (-M ≤ acc.gyRed ∧ acc.gyRed ≤ M) ∧
  (-M ≤ acc.gyGreen ∧ acc.gyGreen ≤ M) ∧ (-M ≤ acc.gyBlue ∧ acc.gyBlue ≤ M)

/-- The integer `edges` computes for a channel of `(i, j)` from the grid `G` it started
with (0 if the computation faulted). -/
def edgeValue (c : Channel) (G : Image) (height width i j : Nat) : Int :=
  (magnitude (convolve Gx c G height width i j) (convolve Gy c G height width i j)).getD 0

/-- The pixel that `edges` writes at `(i, j)`, from the grid `G` it started with. -/
def edgesPixel (G : Image) (height width i j : Nat) : RGBTRIPLE :=
  ⟨toBYTE (edgeValue Channel.blue G height width i j),
   toBYTE (edgeValue Channel.green G height width i j),
   toBYTE (edgeValue Channel.red G height width i j)⟩

/-- A 3x3 image whose column 0 is black and whose columns 1 and 2 are white. -/
def stepEdge : Image :=
  [[rgb 0 0 0, rgb 255 255 255, rgb 255 255 255],
   [rgb 0 0 0, rgb 255 255 255, rgb 255 255 255],
   [rgb 0 0 0, rgb 255 255 255, rgb 255 255 255]]

/-- The 2x2 black and white checkerboard. -/
def checkerboard : Image :=
  [[rgb 0 0 0, rgb 255 255 255], [rgb 255 255 255, rgb 0 0 0]]

/-- The pixel `(i, j)` lies in a corner of the grid: in the first or last row and in the
first or last column. -/
def onCorner (height width i j : Nat) : Bool :=
  (decide (i = 0) || decide (i + 1 = height)) && (decide (j = 0) || decide (j + 1 = width))

/-- The pixel `(i, j)` touches an edge of the grid: it lies in the first or last row or in
the first or last column. -/
def onEdge (height width i j : Nat) : Bool :=
  decide (i = 0) || decide (i + 1 = height) || decide (j = 0) || decide (j + 1 = width)

/-- The divisor the specification states for `blur`: 4 at a corner, 6 on an edge away from
the corners, 9 where no edge is touched. -/
def statedDivisor (height width i j : Nat) : Nat :=
  if onCorner height width i j then 4 else if onEdge height width i j then 6 else 9

/-- The divisor `blur` uses for the pixel `(i, j)`: the value of `count` when the neighbour
loops are done, on the copy `blur` makes of the image. -/
def blurDivisor (height width : Nat) (image : Image) (i j : Nat) : Option Int :=
  (copyImage height width image).bind fun copy =>
    (blurAt height width copy i j).map BlurAcc.count

/-- A 1x1 image. -/
def onePixel : Image := [[rgb 10 20 30]]

/-- A 1x3 image. -/
def oneRow : Image := [[rgb 10 20 30, rgb 40 50 60, rgb 70 80 90]]

/-- Every pixel of the image is the colour `p`: a constant-colour (uniform) image. -/
def isConstant (G : Image) (p : RGBTRIPLE) : Prop :=
  ∀ row ∈ G, ∀ q ∈ row, q = p

instance (G : Image) (p : RGBTRIPLE) : Decidable (isConstant G p) := by
  unfold isConstant
  infer_instance

/-- The image of `height` rows of `width` pixels, all of the colour `p`. -/
def constImage (height width : Nat) (p : RGBTRIPLE) : Image :=
  List.replicate height (List.replicate width p)

/-- The weighted sum of the values `f di dj` over a list of offsets `(di, dj)`, each
weighted by the kernel entry of its offset. -/
def kernelSum (K : List (List Int)) (f : Int → Int → Int) (offs : List (Int × Int)) : Int :=
  (offs.map fun d => weight K d * f d.1 d.2).sum

/-- The accumulators hold the exact (unbounded integer) weighted sums of the three
channels of `G` over the positions reached from `(i, j)` by a list of offsets. -/
def SobelAcc.exactOver (acc : SobelAcc) (G : Image) (height width i j : Nat)
    (offs : List (Int × Int)) : Prop :=
  acc.gxRed = convolveOver Gx Channel.red G height width i j offs ∧
  acc.gxGreen = convolveOver Gx Channel.green G height width i j offs ∧
  acc.gxBlue = convolveOver Gx Channel.blue G height width i j offs ∧
  acc.gyRed = convolveOver Gy Channel.red G height width i j offs ∧
  acc.gyGreen = convolveOver Gy Channel.green G height width i j offs ∧
  acc.gyBlue = convolveOver Gy Channel.blue G height width i j offs

/-- The sum of squares `gx ^ 2 + gy ^ 2` is at most `2 * 1020 ^ 2` and is computed
without wrapping in 32-bit signed integers. -/
def squaresFit (gx gy : Int) : Prop :=
  gx * gx + gy * gy ≤ 2080800 ∧ 2080800 < 2147483648 ∧
  wrapInt (wrapInt (gx * gx) + wrapInt (gy * gy)) = gx * gx + gy * gy

/-- The pixel is gray: its red, green and blue values are equal. -/
def isGray (p : RGBTRIPLE) : Prop := p.rgbtRed = p.rgbtGreen ∧ p.rgbtGreen = p.rgbtBlue

instance (p : RGBTRIPLE) : Decidable (isGray p) := by
  unfold isGray
  infer_instance

/-- Every pixel of the image is gray. -/
def allGray (G : Image) : Prop := ∀ row ∈ G, ∀ p ∈ row, isGray p

instance (G : Image) : Decidable (allGray G) := by
  unfold allGray
  infer_instance

/-- A 2x3 image of six different gray pixels. -/
def sixGrays : Image :=
  [[rgb 1 1 1, rgb 40 40 40, rgb 7 7 7], [rgb 100 100 100, rgb 255 255 255, rgb 9 9 9]]

/-! ## Machine arithmetic: lemmas -/

theorem wrapInt_of_range (x : Int) (h1 : -2147483648 ≤ x) (h2 : x < 2147483648) :
    wrapInt x = x := by
  unfold wrapInt
  omega

theorem ofBYTE_nonneg (b : BYTE) : 0 ≤ ofBYTE b := by
  unfold ofBYTE
  omega

theorem ofBYTE_le (b : BYTE) : ofBYTE b ≤ 255 := by
  unfold ofBYTE
  omega

theorem toBYTE_val (x : Int) (h1 : 0 ≤ x) (h2 : x ≤ 255) : ((toBYTE x).val : Int) = x := by
  unfold toBYTE
  simp only
  omega

theorem toBYTE_ofBYTE (b : BYTE) : toBYTE (ofBYTE b) = b := by
  apply Fin.ext
  have h := toBYTE_val (ofBYTE b) (ofBYTE_nonneg b) (ofBYTE_le b)
  unfold ofBYTE at h ⊢
  omega

/-! ## Memory access: lemmas -/

theorem hasDims_row {image : Image} {height width : Nat} (hd : hasDims image height width)
    {i : Nat} {row : List RGBTRIPLE} (hrow : image[i]? = some row) : row.length = width :=
  hd.2 row (List.getElem?_mem hrow)

theorem readPx_some_of_lt {image : Image} {height width : Nat} (hd : hasDims image height width)
    {i j : Nat} (hi : i < height) (hj : j < width) : ∃ p, readPx image i j = some p := by
  have hi2 : i < image.length := by rw [hd.1]; exact hi
  have hrow : image[i]? = some image[i] := List.getElem?_eq_getElem hi2
  have hlen := hasDims_row hd hrow
  have hj2 : j < image[i].length := by rw [hlen]; exact hj
  refine ⟨image[i][j], ?_⟩
  unfold readPx
  rw [hrow]
  exact List.getElem?_eq_getElem hj2

theorem readPx_lt {image : Image} {height width : Nat} (hd : hasDims image height width)
    {i j : Nat} {p : RGBTRIPLE} (h : readPx image i j = some p) : i < height ∧ j < width := by
  unfold readPx at h
  cases hrow : image[i]? with
  | none => rw [hrow] at h; cases h
  | some row =>
    rw [hrow] at h
    simp only at h
    have hlen := hasDims_row hd hrow
    have hi := (List.getElem?_eq_some_iff.mp hrow).1
    have hj := (List.getElem?_eq_some_iff.mp h).1
    rw [hd.1] at hi
    rw [hlen] at hj
    exact ⟨hi, hj⟩

theorem writePx_spec {image : Image} {height width : Nat} (hd : hasDims image height width)
    {i j : Nat} (hi : i < height) (hj : j < width) (p : RGBTRIPLE) :
    ∃ out, writePx image i j p = some out ∧ hasDims out height width ∧
      ∀ a b, readPx out a b = if a = i ∧ b = j then some p else readPx image a b := by
  have hi2 : i < image.length := by rw [hd.1]; exact hi
  have hrow : image[i]? = some image[i] := List.getElem?_eq_getElem hi2
  have hlen := hasDims_row hd hrow
  have hj2 : j < image[i].length := by rw [hlen]; exact hj
  refine ⟨image.set i (image[i].set j p), ?_, ?_, ?_⟩
  · unfold writePx
    rw [hrow]
    simp only [hj2, if_true]
  · refine ⟨by rw [List.length_set]; exact hd.1, ?_⟩
    intro row hmem
    rcases List.mem_or_eq_of_mem_set hmem with h | h
    · exact hd.2 row h
    · rw [h, List.length_set]; exact hlen
  · intro a b
    unfold readPx
    by_cases ha : a = i
    · subst ha
      rw [List.getElem?_set_self hi2, hrow]
      simp only [true_and]
      by_cases hb : b = j
      · subst hb
        simp only [if_true]
        rw [List.getElem?_set_self hj2]
      · simp only [hb, if_false]
        rw [List.getElem?_set_ne (Ne.symm hb)]
    · rw [List.getElem?_set_ne (Ne.symm ha)]
      simp only [ha, false_and, if_false]

theorem image_ext {a b : Image} {height width : Nat} (ha : hasDims a height width)
    (hb : hasDims b height width)
    (h : ∀ i j, i < height → j < width → readPx a i j = readPx b i j) : a = b := by
  apply List.ext_getElem (by rw [ha.1, hb.1])
  intro i hia hib
  have hra : a[i]? = some a[i] := List.getElem?_eq_getElem hia
  have hrb : b[i]? = some b[i] := List.getElem?_eq_getElem hib
  have hla := hasDims_row ha hra
  have hlb := hasDims_row hb hrb
  apply List.ext_getElem (by rw [hla, hlb])
  intro j hja hjb
  have hi : i < height := by rw [← ha.1]; exact hia
  have hj : j < width := by rw [← hla]; exact hja
  have e := h i j hi hj
  unfold readPx at e
  rw [hra, hrb] at e
  simp only at e
  rw [List.getElem?_eq_getElem hja, List.getElem?_eq_getElem hjb] at e
  exact Option.some.inj e

theorem readPx_none_of_not_lt {image : Image} {height width : Nat}
    (hd : hasDims image height width) {i j : Nat} (h : ¬ (i < height ∧ j < width)) :
    readPx image i j = none := by
  cases e : readPx image i j with
  | none => rfl
  | some p => exact absurd (readPx_lt hd e) h

/-! ## Loops: lemmas -/

theorem forLoop_invariant {σ : Type} (Inv : Nat → σ → Prop) (n : Nat)
    (body : Nat → σ → Option σ) (s0 : σ) (h0 : Inv 0 s0)
    (hstep : ∀ k s, k < n → Inv k s → ∃ s1, body k s = some s1 ∧ Inv (k + 1) s1) :
    ∃ s, forLoop n body s0 = some s ∧ Inv n s := by
  induction n with
  | zero => exact ⟨s0, rfl, h0⟩
  | succ m ih =>
    obtain ⟨s, hs, hinv⟩ := ih (fun k t hk ht => hstep k t (by omega) ht)
    obtain ⟨s1, hs1, hinv1⟩ := hstep m s (by omega) hinv
    refine ⟨s1, ?_, hinv1⟩
    simp only [forLoop, hs, Option.bind]
    exact hs1

/-- A double loop over all pixels whose body replaces pixel `(i, j)` by `F i j` of its
current value computes the pointwise map of `F` over the image. -/
theorem pixelLoops_spec (height width : Nat) (step : Nat → Nat → Image → Option Image)
    (F : Nat → Nat → RGBTRIPLE → RGBTRIPLE)
    (hstep : ∀ img i j p, hasDims img height width → i < height → j < width →
      readPx img i j = some p →
      ∃ out, step i j img = some out ∧ hasDims out height width ∧
        ∀ a b, readPx out a b = if a = i ∧ b = j then some (F i j p) else readPx img a b)
    (image : Image) (hd : hasDims image height width) :
    ∃ out, forLoop height (fun i s => forLoop width (fun j t => step i j t) s) image = some out ∧
      hasDims out height width ∧
      ∀ a b, readPx out a b = (readPx image a b).map (F a b) := by
  have houter := forLoop_invariant
    (fun n s => hasDims s height width ∧
      ∀ a b, readPx s a b = if a < n then (readPx image a b).map (F a b) else readPx image a b)
    height (fun i s => forLoop width (fun j t => step i j t) s) image
    ⟨hd, fun a b => by simp⟩
    (by
      intro i s hi hinv
      obtain ⟨hds, hrs⟩ := hinv
      have hinner := forLoop_invariant
        (fun k t => hasDims t height width ∧
          ∀ a b, readPx t a b =
            if a = i ∧ b < k then (readPx s a b).map (F a b) else readPx s a b)
        width (fun j t => step i j t) s
        ⟨hds, fun a b => by simp⟩
        (by
          intro j t hj hinvt
          obtain ⟨hdt, hrt⟩ := hinvt
          obtain ⟨p, hp⟩ := readPx_some_of_lt hds hi hj
          have hpt : readPx t i j = some p := by
            rw [hrt i j]
            simp only [lt_irrefl, and_false, if_false]
            exact hp
          obtain ⟨out, hout, hdo, hro⟩ := hstep t i j p hdt hi hj hpt
          refine ⟨out, hout, hdo, ?_⟩
          intro a b
          rw [hro a b, hrt a b]
          by_cases ha : a = i
          · subst ha
            by_cases hb : b = j
            · subst hb
              simp [hp]
            · have h1 : (b < j + 1) ↔ (b < j) := by omega
              simp [hb, h1]
          · simp [ha])
      obtain ⟨t, ht, hdt, hrt⟩ := hinner
      refine ⟨t, ht, hdt, ?_⟩
      intro a b
      rw [hrt a b, hrs a b]
      by_cases ha : a = i
      · subst ha
        by_cases hb : b < width
        · simp [hb]
        · have hn : readPx image a b = none :=
            readPx_none_of_not_lt hd (fun h => hb h.2)
          simp [hb, hn]
      · have h1 : (a < i + 1) ↔ (a < i) := by omega
        simp [ha, h1])
  obtain ⟨out, hout, hdo, hro⟩ := houter
  refine ⟨out, hout, hdo, ?_⟩
  intro a b
  rw [hro a b]
  by_cases ha : a < height
  · simp [ha]
  · have hn : readPx image a b = none := readPx_none_of_not_lt hd (fun h => ha h.1)
    simp [ha, hn]

/-! ## Rounding: lemmas -/

theorem cRound_eq_round (x : ℚ) (hx : 0 ≤ x) : cRound x = round x := by
  unfold cRound
  rw [if_pos hx, round_eq]

theorem cRound_div (n d : Int) (hn : 0 ≤ n) (hd : 0 < d) :
    cRound ((n : ℚ) / (d : ℚ)) = (2 * n + d) / (2 * d) := by
  have hdq : (0 : ℚ) < (d : ℚ) := by exact_mod_cast hd
  have hnq : (0 : ℚ) ≤ (n : ℚ) := by exact_mod_cast hn
  have hx : (0 : ℚ) ≤ (n : ℚ) / (d : ℚ) := div_nonneg hnq hdq.le
  unfold cRound
  rw [if_pos hx]
  obtain ⟨m, hm⟩ := Int.eq_ofNat_of_zero_le hd.le
  have hm0 : (m : ℚ) ≠ 0 := by
    intro h0
    have : (d : ℚ) = 0 := by rw [hm]; exact_mod_cast h0
    exact absurd this (ne_of_gt hdq)
  have e : (n : ℚ) / (d : ℚ) + 1 / 2 = ((2 * n + d : Int) : ℚ) / ((2 * m : Nat) : ℚ) := by
    rw [hm]
    push_cast
    field_simp
    ring
  rw [e, Rat.floor_intCast_div_natCast, hm]
  push_cast
  rfl

theorem grayValue_eq (p : RGBTRIPLE) :
    grayValue p = (ofBYTE p.rgbtRed + ofBYTE p.rgbtGreen + ofBYTE p.rgbtBlue + 1) / 3 := by
  have hr := ofBYTE_nonneg p.rgbtRed
  have hg := ofBYTE_nonneg p.rgbtGreen
  have hb := ofBYTE_nonneg p.rgbtBlue
  have hr2 := ofBYTE_le p.rgbtRed
  have hg2 := ofBYTE_le p.rgbtGreen
  have hb2 := ofBYTE_le p.rgbtBlue
  unfold grayValue
  simp only
  rw [wrapInt_of_range (ofBYTE p.rgbtRed + ofBYTE p.rgbtGreen) (by omega) (by omega),
    wrapInt_of_range _ (by omega) (by omega)]
  have h := cRound_div (ofBYTE p.rgbtRed + ofBYTE p.rgbtGreen + ofBYTE p.rgbtBlue) 3
    (by omega) (by omega)
  have h3 : ((3 : Int) : ℚ) = 3 := by norm_num
  rw [h3] at h
  rw [h]
  omega

/-! ## Channel stores: lemmas -/

theorem storeAll_spec {image : Image} {height width : Nat} (hd : hasDims image height width)
    {i j : Nat} (hi : i < height) (hj : j < width) {p : RGBTRIPLE}
    (hp : readPx image i j = some p) (r g b : Int) :
    ∃ out, ((storeRed image i j r).bind fun image1 =>
        (storeGreen image1 i j g).bind fun image2 => storeBlue image2 i j b) = some out ∧
      hasDims out height width ∧
      ∀ a c, readPx out a c =
        if a = i ∧ c = j then some ⟨toBYTE b, toBYTE g, toBYTE r⟩ else readPx image a c := by
  obtain ⟨o1, h1, d1, r1⟩ := writePx_spec hd hi hj { p with rgbtRed := toBYTE r }
  have p1 : readPx o1 i j = some { p with rgbtRed := toBYTE r } := by rw [r1]; simp
  obtain ⟨o2, h2, d2, r2⟩ := writePx_spec d1 hi hj
    { ({ p with rgbtRed := toBYTE r } : RGBTRIPLE) with rgbtGreen := toBYTE g }
  have p2 : readPx o2 i j =
      some { ({ p with rgbtRed := toBYTE r } : RGBTRIPLE) with rgbtGreen := toBYTE g } := by
    rw [r2]; simp
  obtain ⟨o3, h3, d3, r3⟩ := writePx_spec d2 hi hj
    { ({ ({ p with rgbtRed := toBYTE r } : RGBTRIPLE) with rgbtGreen := toBYTE g } : RGBTRIPLE)
      with rgbtBlue := toBYTE b }
  refine ⟨o3, ?_, d3, ?_⟩
  · simp only [storeRed, storeGreen, storeBlue, hp, Option.bind, h1, p1, h2, p2]
    exact h3
  · intro a c
    rw [r3, r2, r1]
    by_cases hac : a = i ∧ c = j
    · simp [hac]
    · simp [hac]

/-! ## grayscale: lemmas -/

theorem grayscale_spec (height width : Nat) (image : Image)
    (hd : hasDims image height width) :
    ∃ out, grayscale height width image = some out ∧ hasDims out height width ∧
      ∀ a b, readPx out a b = (readPx image a b).map grayPixel := by
  unfold grayscale
  apply pixelLoops_spec height width (fun i j t => grayscaleBody t i j) (fun _ _ p => grayPixel p)
  · intro img i j p hdi hi hj hp
    obtain ⟨out, ho, hdo, hro⟩ := storeAll_spec hdi hi hj hp (grayValue p) (grayValue p)
      (grayValue p)
    refine ⟨out, ?_, hdo, hro⟩
    simp only [grayscaleBody, hp, Option.bind]
    exact ho
  · exact hd

theorem grayValue_range (p : RGBTRIPLE) : 0 ≤ grayValue p ∧ grayValue p ≤ 255 := by
  have hr := ofBYTE_nonneg p.rgbtRed
  have hg := ofBYTE_nonneg p.rgbtGreen
  have hb := ofBYTE_nonneg p.rgbtBlue
  have hr2 := ofBYTE_le p.rgbtRed
  have hg2 := ofBYTE_le p.rgbtGreen
  have hb2 := ofBYTE_le p.rgbtBlue
  rw [grayValue_eq]
  omega

theorem grayValue_eq_round (p : RGBTRIPLE) :
    grayValue p =
      round (((p.rgbtRed.val + p.rgbtGreen.val + p.rgbtBlue.val : Nat) : ℚ) / 3) := by
  have hr := ofBYTE_nonneg p.rgbtRed
  have hg := ofBYTE_nonneg p.rgbtGreen
  have hb := ofBYTE_nonneg p.rgbtBlue
  have hr2 := ofBYTE_le p.rgbtRed
  have hg2 := ofBYTE_le p.rgbtGreen
  have hb2 := ofBYTE_le p.rgbtBlue
  unfold grayValue
  simp only
  rw [wrapInt_of_range (ofBYTE p.rgbtRed + ofBYTE p.rgbtGreen) (by omega) (by omega),
    wrapInt_of_range _ (by omega) (by omega)]
  rw [cRound_eq_round]
  · unfold ofBYTE
    push_cast
    rfl
  · apply div_nonneg
    · exact_mod_cast (by omega : (0 : Int) ≤ ofBYTE p.rgbtRed + ofBYTE p.rgbtGreen + ofBYTE p.rgbtBlue)
    · norm_num

theorem grayPixel_idem (p : RGBTRIPLE) : grayPixel (grayPixel p) = grayPixel p := by
  have hrange := grayValue_range p
  have hv := toBYTE_val (grayValue p) hrange.1 hrange.2
  have e : grayValue (grayPixel p) = grayValue p := by
    rw [grayValue_eq (grayPixel p)]
    unfold grayPixel ofBYTE
    simp only
    omega
  unfold grayPixel at e ⊢
  rw [e]

/-! ## reflect: lemmas -/

theorem reflectBody_spec {image : Image} {height width : Nat} (hd : hasDims image height width)
    {i j : Nat} (hi : i < height) (hj : j < width / 2) :
    ∃ out, reflectBody width image i j = some out ∧ hasDims out height width ∧
      ∀ a b, readPx out a b =
        if a = i ∧ b = width - j - 1 then readPx image i j
        else if a = i ∧ b = j then readPx image i (width - j - 1)
        else readPx image a b := by
  obtain ⟨tmp, htmp⟩ := readPx_some_of_lt hd hi (by omega : j < width)
  obtain ⟨q, hq⟩ := readPx_some_of_lt hd hi (by omega : width - j - 1 < width)
  obtain ⟨o1, h1, d1, r1⟩ := writePx_spec hd hi (by omega : j < width) q
  obtain ⟨o2, h2, d2, r2⟩ := writePx_spec d1 hi (by omega : width - j - 1 < width) tmp
  refine ⟨o2, ?_, d2, ?_⟩
  · simp only [reflectBody, htmp, hq, Option.bind, h1]
    exact h2
  · intro a b
    rw [r2, r1, htmp, hq]

theorem reflect_row (height width : Nat) (s : Image) (hds : hasDims s height width)
    (i : Nat) (hi : i < height) :
    ∃ t, forLoop (width / 2) (fun j u => reflectBody width u i j) s = some t ∧
      hasDims t height width ∧
      ∀ a b, readPx t a b =
        if a = i ∧ b < width then readPx s i (width - 1 - b) else readPx s a b := by
  have hloop := forLoop_invariant
    (fun k t => hasDims t height width ∧
      ∀ a b, readPx t a b =
        if a = i ∧ (b < k ∨ (width - k ≤ b ∧ b < width)) then readPx s i (width - 1 - b)
        else readPx s a b)
    (width / 2) (fun j u => reflectBody width u i j) s
    ⟨hds, fun a b => by
      have h : ¬ (a = i ∧ (b < 0 ∨ (width - 0 ≤ b ∧ b < width))) := by omega
      rw [if_neg h]⟩
    (by
      intro k t hk hinv
      obtain ⟨hdt, hrt⟩ := hinv
      obtain ⟨out, ho, hdo, hro⟩ := reflectBody_spec hdt hi hk
      refine ⟨out, ho, hdo, ?_⟩
      intro a b
      rw [hro a b]
      simp only [hrt]
      split_ifs <;>
        first
        | rfl
        | (exfalso; omega)
        | (congr 1; omega))
  obtain ⟨t, ht, hdt, hrt⟩ := hloop
  refine ⟨t, ht, hdt, ?_⟩
  intro a b
  rw [hrt a b]
  split_ifs <;>
    first
    | rfl
    | (exfalso; omega)
    | (congr 1 <;> omega)

theorem reflect_spec (height width : Nat) (image : Image)
    (hd : hasDims image height width) :
    ∃ out, reflect height width image = some out ∧ hasDims out height width ∧
      ∀ a b, a < height → b < width → readPx out a b = readPx image a (width - 1 - b) := by
  have hloop := forLoop_invariant
    (fun n s => hasDims s height width ∧
      ∀ a b, readPx s a b =
        if a < n ∧ b < width then readPx image a (width - 1 - b) else readPx image a b)
    height (fun i s => forLoop (width / 2) (fun j u => reflectBody width u i j) s) image
    ⟨hd, fun a b => by simp⟩
    (by
      intro i s hi hinv
      obtain ⟨hds, hrs⟩ := hinv
      obtain ⟨t, ht, hdt, hrt⟩ := reflect_row height width s hds i hi
      refine ⟨t, ht, hdt, ?_⟩
      intro a b
      rw [hrt a b]
      simp only [hrs]
      split_ifs <;>
        first
        | rfl
        | (exfalso; omega)
        | (congr 1; omega))
  obtain ⟨out, ho, hdo, hro⟩ := hloop
  refine ⟨out, ho, hdo, ?_⟩
  intro a b ha hb
  rw [hro a b, if_pos ⟨ha, hb⟩]

/-! ## The scratch copy: lemmas -/

theorem blankCopy_hasDims (height width : Nat) : hasDims (blankCopy height width) height width := by
  refine ⟨by simp [blankCopy], ?_⟩
  intro row hrow
  have h := List.eq_of_mem_replicate hrow
  rw [h, List.length_replicate]

/-- The copy loop leaves in `copy` exactly the image. -/
theorem copyImage_spec (height width : Nat) (image : Image)
    (hd : hasDims image height width) : copyImage height width image = some image := by
  obtain ⟨out, ho, hdo, hro⟩ := pixelLoops_spec height width
    (fun i j t => (readPx image i j).bind fun p => writePx t i j p)
    (fun i j _ => (readPx image i j).getD default)
    (by
      intro img i j p hdi hi hj _
      obtain ⟨q, hq⟩ := readPx_some_of_lt hd hi hj
      obtain ⟨out, ho, hdo, hro⟩ := writePx_spec hdi hi hj q
      refine ⟨out, ?_, hdo, ?_⟩
      · simp only [hq, Option.bind]
        exact ho
      · intro a b
        rw [hro a b]
        simp only [hq, Option.getD])
    (blankCopy height width) (blankCopy_hasDims height width)
  unfold copyImage
  rw [ho]
  congr 1
  apply image_ext hdo hd
  intro i j hi hj
  obtain ⟨q, hq⟩ := readPx_some_of_lt hd hi hj
  obtain ⟨q0, hq0⟩ := readPx_some_of_lt (blankCopy_hasDims height width) hi hj
  rw [hro i j, hq0, hq]
  rfl

/-! ## blur: lemmas -/

theorem blurAt_eq_fold (height width : Nat) (copy : Image) (i j : Nat) :
    blurAt height width copy i j = blurFold height width copy i j offsets ⟨0, 0, 0, 0⟩ := by
  simp only [blurAt, forOffsets, blurFold, offsets, Option.bind_assoc, Option.bind_some]

theorem inBounds_eq (height width : Nat) (a b : Int) :
    inBounds height width a b = decide (0 ≤ a ∧ a < height ∧ 0 ≤ b ∧ b < width) := by
  unfold inBounds
  simp only [Bool.decide_and, Bool.and_assoc]

theorem chan_le (p : RGBTRIPLE) (c : Channel) : p.chan c ≤ 255 := by
  cases c <;> simp only [RGBTRIPLE.chan] <;> omega

theorem chanAt_le (c : Channel) (G : Image) (q : Nat × Nat) : chanAt c G q ≤ 255 := by
  unfold chanAt
  split
  · exact chan_le _ c
  · omega

theorem chanSum_le (c : Channel) (G : Image) (ps : List (Nat × Nat)) :
    chanSum c G ps ≤ 255 * ps.length := by
  induction ps with
  | nil => simp [chanSum]
  | cons q rest ih =>
    have h := chanAt_le c G q
    simp only [chanSum, List.map_cons, List.sum_cons, List.length_cons] at ih ⊢
    omega

theorem blurFold_spec {copy : Image} {height width : Nat} (hd : hasDims copy height width)
    (i j : Nat) :
    ∀ (offs : List (Int × Int)) (acc : BlurAcc),
      0 ≤ acc.redSum → acc.redSum + 255 * offs.length < 2147483648 →
      0 ≤ acc.greenSum → acc.greenSum + 255 * offs.length < 2147483648 →
      0 ≤ acc.blueSum → acc.blueSum + 255 * offs.length < 2147483648 →
      0 ≤ acc.count → acc.count + offs.length < 2147483648 →
      ∃ acc1, blurFold height width copy i j offs acc = some acc1 ∧
        acc1.redSum = acc.redSum +
          chanSum Channel.red copy (positions i j (inside height width i j offs)) ∧
        acc1.greenSum = acc.greenSum +
          chanSum Channel.green copy (positions i j (inside height width i j offs)) ∧
        acc1.blueSum = acc.blueSum +
          chanSum Channel.blue copy (positions i j (inside height width i j offs)) ∧
        acc1.count = acc.count + (positions i j (inside height width i j offs)).length := by
  intro offs
  induction offs with
  | nil =>
    intro acc _ _ _ _ _ _ _ _
    exact ⟨acc, rfl, by simp [inside, positions, chanSum]⟩
  | cons d rest ih =>
    intro acc hr0 hr1 hg0 hg1 hb0 hb1 hc0 hc1
    simp only [List.length_cons, Nat.cast_add, Nat.cast_one] at hr1 hg1 hb1 hc1
    by_cases hin : (0 ≤ (i : Int) + d.1 ∧ (i : Int) + d.1 < height ∧
        0 ≤ (j : Int) + d.2 ∧ (j : Int) + d.2 < width)
    · have hbd : inBounds height width ((i : Int) + d.1) ((j : Int) + d.2) = true := by
        rw [inBounds_eq]
        exact decide_eq_true hin
      obtain ⟨p, hp⟩ := readPx_some_of_lt hd
        (by omega : ((i : Int) + d.1).toNat < height) (by omega : ((j : Int) + d.2).toNat < width)
      have hpr := ofBYTE_nonneg p.rgbtRed
      have hpr2 := ofBYTE_le p.rgbtRed
      have hpg := ofBYTE_nonneg p.rgbtGreen
      have hpg2 := ofBYTE_le p.rgbtGreen
      have hpb := ofBYTE_nonneg p.rgbtBlue
      have hpb2 := ofBYTE_le p.rgbtBlue
      obtain ⟨acc1, hf, e1, e2, e3, e4⟩ := ih
        { redSum := acc.redSum + ofBYTE p.rgbtRed
          greenSum := acc.greenSum + ofBYTE p.rgbtGreen
          blueSum := acc.blueSum + ofBYTE p.rgbtBlue
          count := acc.count + 1 }
        (by simp only; omega) (by simp only; omega) (by simp only; omega) (by simp only; omega)
        (by simp only; omega) (by simp only; omega) (by simp only; omega) (by simp only; omega)
      refine ⟨acc1, ?_, ?_⟩
      · simp only [blurFold, blurSample, hbd, if_true, hp, Option.bind]
        rw [wrapInt_of_range (acc.redSum + ofBYTE p.rgbtRed) (by omega) (by omega),
          wrapInt_of_range (acc.greenSum + ofBYTE p.rgbtGreen) (by omega) (by omega),
          wrapInt_of_range (acc.blueSum + ofBYTE p.rgbtBlue) (by omega) (by omega),
          wrapInt_of_range (acc.count + 1) (by omega) (by omega)]
        exact hf
      · have hins : inside height width i j (d :: rest) = d :: inside height width i j rest := by
          simp only [inside, List.filter_cons, decide_eq_true hin, if_true]
        simp only at e1 e2 e3 e4
        rw [hins]
        simp only [positions, List.map_cons, chanSum, List.sum_cons, List.length_cons,
          chanAt, hp, RGBTRIPLE.chan] at e1 e2 e3 e4 ⊢
        unfold ofBYTE at e1 e2 e3
        refine ⟨?_, ?_, ?_, ?_⟩
        · rw [e1]; push_cast; ring
        · rw [e2]; push_cast; ring
        · rw [e3]; push_cast; ring
        · rw [e4]; push_cast; ring
    · have hbd : inBounds height width ((i : Int) + d.1) ((j : Int) + d.2) = false := by
        rw [inBounds_eq]
        exact decide_eq_false hin
      obtain ⟨acc1, hf, e⟩ := ih acc hr0 (by omega) hg0 (by omega) hb0 (by omega) hc0 (by omega)
      refine ⟨acc1, ?_, ?_⟩
      · simp only [blurFold, blurSample, hbd, Option.bind]
        exact hf
      · have hins : inside height width i j (d :: rest) = inside height width i j rest := by
          simp only [inside, List.filter_cons, decide_eq_false hin]
          rfl
        rw [hins]
        exact e

theorem neighbours_length_pos {height width i j : Nat} (hi : i < height) (hj : j < width) :
    0 < (neighbours height width i j).length := by
  have hmem : ((0 : Int), (0 : Int)) ∈ inside height width i j offsets := by
    unfold inside
    rw [List.mem_filter]
    refine ⟨by simp [offsets], ?_⟩
    apply decide_eq_true
    simp only
    omega
  unfold neighbours positions
  rw [List.length_map]
  exact List.length_pos_of_mem hmem

theorem blurAt_spec {copy : Image} {height width : Nat} (hd : hasDims copy height width)
    (i j : Nat) :
    blurAt height width copy i j =
      some ⟨(chanSum Channel.red copy (neighbours height width i j) : Nat),
        (chanSum Channel.green copy (neighbours height width i j) : Nat),
        (chanSum Channel.blue copy (neighbours height width i j) : Nat),
        ((neighbours height width i j).length : Nat)⟩ := by
  obtain ⟨acc, hf, e1, e2, e3, e4⟩ := blurFold_spec hd i j offsets ⟨0, 0, 0, 0⟩
    (by simp) (by simp [offsets]) (by simp) (by simp [offsets]) (by simp) (by simp [offsets])
    (by simp) (by simp [offsets])
  rw [blurAt_eq_fold, hf]
  simp only [zero_add] at e1 e2 e3 e4
  unfold neighbours
  rw [← e1, ← e2, ← e3, ← e4]

theorem roundMean_spec (s c : Nat) (hc : 0 < c) :
    roundMean (s : Int) (c : Int) = some ((roundedMean s c : Nat) : Int) := by
  unfold roundMean
  have hc0 : ¬ ((c : Int) = 0) := by omega
  rw [if_neg hc0]
  have h := cRound_div (s : Int) (c : Int) (by omega) (by omega)
  rw [h]
  unfold roundedMean
  norm_cast

theorem roundedMean_le (s c : Nat) (hc : 0 < c) (hs : s ≤ 255 * c) : roundedMean s c ≤ 255 := by
  unfold roundedMean
  have h : (2 * s + c) / (2 * c) < 256 := by
    rw [Nat.div_lt_iff_lt_mul (by omega)]
    omega
  omega

theorem roundedMean_eq_round (s c : Nat) (hc : 0 < c) :
    ((roundedMean s c : Nat) : Int) = round ((s : ℚ) / (c : ℚ)) := by
  have h := cRound_div (s : Int) (c : Int) (by omega) (by omega)
  have hx : (0 : ℚ) ≤ ((s : Int) : ℚ) / ((c : Int) : ℚ) := by
    apply div_nonneg <;> norm_cast <;> omega
  rw [cRound_eq_round _ hx] at h
  have e : ((s : Int) : ℚ) / ((c : Int) : ℚ) = (s : ℚ) / (c : ℚ) := by
    rw [Int.cast_natCast, Int.cast_natCast]
  rw [e] at h
  rw [h]
  unfold roundedMean
  norm_cast

theorem boxMean_le (c : Channel) (G : Image) {height width i j : Nat}
    (hi : i < height) (hj : j < width) : boxMean c G height width i j ≤ 255 :=
  roundedMean_le _ _ (neighbours_length_pos hi hj) (chanSum_le c G _)

theorem blurValues_spec {copy : Image} {height width : Nat} (hd : hasDims copy height width)
    {i j : Nat} (hi : i < height) (hj : j < width) :
    blurValues height width copy i j =
      some (((boxMean Channel.red copy height width i j : Nat) : Int),
        ((boxMean Channel.green copy height width i j : Nat) : Int),
        ((boxMean Channel.blue copy height width i j : Nat) : Int)) := by
  have hpos := neighbours_length_pos hi hj
  unfold blurValues
  rw [blurAt_spec hd i j]
  simp only [Option.bind, roundMean_spec _ _ hpos]
  rfl

theorem blur_spec (height width : Nat) (image : Image) (hd : hasDims image height width) :
    ∃ out, blur height width image = some out ∧ hasDims out height width ∧
      ∀ a b, a < height → b < width →
        readPx out a b = some (blurPixel image height width a b) := by
  obtain ⟨out, ho, hdo, hro⟩ := pixelLoops_spec height width
    (fun i j t => blurBody height width image t i j)
    (fun i j _ => blurPixel image height width i j)
    (by
      intro img i j p hdi hi hj hp
      obtain ⟨out, ho, hdo, hro⟩ := storeAll_spec hdi hi hj hp
        ((boxMean Channel.red image height width i j : Nat) : Int)
        ((boxMean Channel.green image height width i j : Nat) : Int)
        ((boxMean Channel.blue image height width i j : Nat) : Int)
      refine ⟨out, ?_, hdo, hro⟩
      simp only [blurBody, blurValues_spec hd hi hj, Option.bind]
      exact ho)
    image hd
  refine ⟨out, ?_, hdo, ?_⟩
  · unfold blur
    rw [copyImage_spec height width image hd]
    exact ho
  · intro a b ha hb
    obtain ⟨p, hp⟩ := readPx_some_of_lt hd ha hb
    rw [hro a b, hp]
    rfl

theorem blurPixel_chan (G : Image) {height width i j : Nat} (hi : i < height) (hj : j < width)
    (c : Channel) : (blurPixel G height width i j).chan c = boxMean c G height width i j := by
  have h := boxMean_le c G hi hj
  have hv := toBYTE_val ((boxMean c G height width i j : Nat) : Int) (by omega) (by omega)
  cases c <;> simp only [blurPixel, RGBTRIPLE.chan] <;> omega

/-! ## edges: lemmas -/

theorem sobelAt_eq_fold (height width : Nat) (copy : Image) (i j : Nat) :
    sobelAt height width copy i j =
      edgesFold height width copy i j offsets ⟨0, 0, 0, 0, 0, 0⟩ := by
  simp only [sobelAt, forOffsets, edgesFold, offsets, Option.bind_assoc, Option.bind_some]

theorem kernelAt_Gx {d : Int × Int} (hd : d ∈ offsets) :
    kernelAt Gx (d.1 + 1) (d.2 + 1) = some (weight Gx d) ∧ -2 ≤ weight Gx d ∧ weight Gx d ≤ 2 := by
  simp only [offsets, List.mem_cons, List.mem_singleton, List.mem_nil_iff, or_false] at hd
  rcases hd with h | h | h | h | h | h | h | h | h <;> subst h <;> decide

theorem kernelAt_Gy {d : Int × Int} (hd : d ∈ offsets) :
    kernelAt Gy (d.1 + 1) (d.2 + 1) = some (weight Gy d) ∧ -2 ≤ weight Gy d ∧ weight Gy d ≤ 2 := by
  simp only [offsets, List.mem_cons, List.mem_singleton, List.mem_nil_iff, or_false] at hd
  rcases hd with h | h | h | h | h | h | h | h | h <;> subst h <;> decide

theorem wrap_add_mul (a v k M : Int) (hv0 : 0 ≤ v) (hv : v ≤ 255) (hk0 : -2 ≤ k) (hk : k ≤ 2)
    (ha0 : -M ≤ a) (ha : a ≤ M) (hM : M + 510 < 2147483648) :
    wrapInt (a + wrapInt (v * k)) = a + k * v ∧
      -(M + 510) ≤ a + k * v ∧ a + k * v ≤ M + 510 := by
  have hb : -510 ≤ v * k ∧ v * k ≤ 510 := by
    constructor <;> nlinarith
  have e : v * k = k * v := mul_comm v k
  rw [wrapInt_of_range (v * k) (by omega) (by omega),
    wrapInt_of_range (a + v * k) (by omega) (by omega)]
  rw [e] at hb ⊢
  omega

theorem chan_red (p : RGBTRIPLE) : ((p.chan Channel.red : Nat) : Int) = ofBYTE p.rgbtRed := rfl

theorem chan_green (p : RGBTRIPLE) : ((p.chan Channel.green : Nat) : Int) = ofBYTE p.rgbtGreen :=
  rfl

theorem chan_blue (p : RGBTRIPLE) : ((p.chan Channel.blue : Nat) : Int) = ofBYTE p.rgbtBlue := rfl

theorem edgesFold_spec {copy : Image} {height width : Nat} (hd : hasDims copy height width)
    (i j : Nat) :
    ∀ (offs : List (Int × Int)) (acc : SobelAcc) (M : Int),
      (∀ d ∈ offs, d ∈ offsets) → acc.within M → M + 510 * offs.length < 2147483648 →
      ∃ acc1, edgesFold height width copy i j offs acc = some acc1 ∧
        acc1.gxRed = acc.gxRed + convolveOver Gx Channel.red copy height width i j offs ∧
        acc1.gxGreen = acc.gxGreen + convolveOver Gx Channel.green copy height width i j offs ∧
        acc1.gxBlue = acc.gxBlue + convolveOver Gx Channel.blue copy height width i j offs ∧
        acc1.gyRed = acc.gyRed + convolveOver Gy Channel.red copy height width i j offs ∧
        acc1.gyGreen = acc.gyGreen + convolveOver Gy Channel.green copy height width i j offs ∧
        acc1.gyBlue = acc.gyBlue + convolveOver Gy Channel.blue copy height width i j offs := by
  intro offs
  induction offs with
  | nil =>
    intro acc M _ _ _
    exact ⟨acc, rfl, by simp [convolveOver]⟩
  | cons d rest ih =>
    intro acc M hmem hw hM
    simp only [List.length_cons, Nat.cast_add, Nat.cast_one] at hM
    have hdm : d ∈ offsets := hmem d (List.mem_cons_self d rest)
    have hrest : ∀ e ∈ rest, e ∈ offsets := fun e he => hmem e (List.mem_cons_of_mem d he)
    obtain ⟨hkx, hkx0, hkx1⟩ := kernelAt_Gx hdm
    obtain ⟨hky, hky0, hky1⟩ := kernelAt_Gy hdm
    by_cases hin : (0 ≤ (i : Int) + d.1 ∧ (i : Int) + d.1 < height ∧
        0 ≤ (j : Int) + d.2 ∧ (j : Int) + d.2 < width)
    · have hbd : inBounds height width ((i : Int) + d.1) ((j : Int) + d.2) = true := by
        rw [inBounds_eq]
        exact decide_eq_true hin
      obtain ⟨p, hp⟩ := readPx_some_of_lt hd
        (by omega : ((i : Int) + d.1).toNat < height) (by omega : ((j : Int) + d.2).toNat < width)
      have hpr := ofBYTE_nonneg p.rgbtRed
      have hpr2 := ofBYTE_le p.rgbtRed
      have hpg := ofBYTE_nonneg p.rgbtGreen
      have hpg2 := ofBYTE_le p.rgbtGreen
      have hpb := ofBYTE_nonneg p.rgbtBlue
      have hpb2 := ofBYTE_le p.rgbtBlue
      obtain ⟨⟨a1, a2⟩, ⟨a3, a4⟩, ⟨a5, a6⟩, ⟨a7, a8⟩, ⟨a9, a10⟩, ⟨a11, a12⟩⟩ := hw
      have hM2 : M + 510 < 2147483648 := by omega
      obtain ⟨w1, w1a, w1b⟩ := wrap_add_mul acc.gxRed _ _ M hpr hpr2 hkx0 hkx1 a1 a2 hM2
      obtain ⟨w2, w2a, w2b⟩ := wrap_add_mul acc.gxGreen _ _ M hpg hpg2 hkx0 hkx1 a3 a4 hM2
      obtain ⟨w3, w3a, w3b⟩ := wrap_add_mul acc.gxBlue _ _ M hpb hpb2 hkx0 hkx1 a5 a6 hM2
      obtain ⟨w4, w4a, w4b⟩ := wrap_add_mul acc.gyRed _ _ M hpr hpr2 hky0 hky1 a7 a8 hM2
      obtain ⟨w5, w5a, w5b⟩ := wrap_add_mul acc.gyGreen _ _ M hpg hpg2 hky0 hky1 a9 a10 hM2
      obtain ⟨w6, w6a, w6b⟩ := wrap_add_mul acc.gyBlue _ _ M hpb hpb2 hky0 hky1 a11 a12 hM2
      obtain ⟨acc1, hf, e1, e2, e3, e4, e5, e6⟩ := ih
        { gxRed := acc.gxRed + weight Gx d * ofBYTE p.rgbtRed
          gxGreen := acc.gxGreen + weight Gx d * ofBYTE p.rgbtGreen
          gxBlue := acc.gxBlue + weight Gx d * ofBYTE p.rgbtBlue
          gyRed := acc.gyRed + weight Gy d * ofBYTE p.rgbtRed
          gyGreen := acc.gyGreen + weight Gy d * ofBYTE p.rgbtGreen
          gyBlue := acc.gyBlue + weight Gy d * ofBYTE p.rgbtBlue }
        (M + 510) hrest
        ⟨⟨w1a, w1b⟩, ⟨w2a, w2b⟩, ⟨w3a, w3b⟩, ⟨w4a, w4b⟩, ⟨w5a, w5b⟩, ⟨w6a, w6b⟩⟩
        (by omega)
      refine ⟨acc1, ?_, ?_⟩
      · simp only [edgesFold, edgesSample, hbd, if_true, hp, Option.bind, hkx, hky]
        rw [w1, w2, w3, w4, w5, w6]
        exact hf
      · simp only at e1 e2 e3 e4 e5 e6
        simp only [convolveOver, List.map_cons, List.sum_cons, valueAt, if_pos hin, chanAt, hp,
          chan_red, chan_green, chan_blue] at e1 e2 e3 e4 e5 e6 ⊢
        refine ⟨?_, ?_, ?_, ?_, ?_, ?_⟩
        · rw [e1]; ring
        · rw [e2]; ring
        · rw [e3]; ring
        · rw [e4]; ring
        · rw [e5]; ring
        · rw [e6]; ring
    · have hbd : inBounds height width ((i : Int) + d.1) ((j : Int) + d.2) = false := by
        rw [inBounds_eq]
        exact decide_eq_false hin
      have hw2 : acc.within (M + 510) := by
        obtain ⟨⟨a1, a2⟩, ⟨a3, a4⟩, ⟨a5, a6⟩, ⟨a7, a8⟩, ⟨a9, a10⟩, ⟨a11, a12⟩⟩ := hw
        exact ⟨⟨by omega, by omega⟩, ⟨by omega, by omega⟩, ⟨by omega, by omega⟩,
          ⟨by omega, by omega⟩, ⟨by omega, by omega⟩, ⟨by omega, by omega⟩⟩
      obtain ⟨acc1, hf, e⟩ := ih acc (M + 510) hrest hw2 (by omega)
      refine ⟨acc1, ?_, ?_⟩
      · simp only [edgesFold, edgesSample, hbd, Option.bind]
        exact hf
      · simp only [convolveOver, List.map_cons, List.sum_cons, valueAt, if_neg hin, mul_zero,
          zero_add] at e ⊢
        exact e

theorem sobelAt_spec {copy : Image} {height width : Nat} (hd : hasDims copy height width)
    (i j : Nat) :
    sobelAt height width copy i j =
      some ⟨convolve Gx Channel.red copy height width i j,
        convolve Gx Channel.green copy height width i j,
        convolve Gx Channel.blue copy height width i j,
        convolve Gy Channel.red copy height width i j,
        convolve Gy Channel.green copy height width i j,
        convolve Gy Channel.blue copy height width i j⟩ := by
  obtain ⟨acc, hf, e1, e2, e3, e4, e5, e6⟩ := edgesFold_spec hd i j offsets ⟨0, 0, 0, 0, 0, 0⟩ 0
    (fun d h => h) (by simp [SobelAcc.within]) (by simp [offsets])
  rw [sobelAt_eq_fold, hf]
  simp only [zero_add] at e1 e2 e3 e4 e5 e6
  unfold convolve
  rw [← e1, ← e2, ← e3, ← e4, ← e5, ← e6]

/-! ## Square root: lemmas -/

theorem sqrtIter_eq (n : Nat) :
    ∀ fuel guess, guess ≤ fuel → sqrtIter n fuel guess = Nat.sqrt.iter n guess := by
  intro fuel
  induction fuel with
  | zero =>
    intro guess h
    have h0 : guess = 0 := by omega
    subst h0
    rw [Nat.sqrt.iter]
    simp [sqrtIter]
  | succ f ih =>
    intro guess h
    rw [Nat.sqrt.iter]
    simp only [sqrtIter]
    split
    · exact ih _ (by omega)
    · rfl

theorem isqrt_eq (n : Nat) : isqrt n = Nat.sqrt n := by
  unfold isqrt Nat.sqrt
  split
  · rfl
  · exact sqrtIter_eq n _ _ (le_refl _)

/-- `roundSqrt` of a natural number is the integer nearest to its real square root. -/
theorem roundSqrt_natCast (n : Nat) :
    ∃ k : Nat, roundSqrt (n : Int) = some (k : Int) ∧
      (k : Int) = round (Real.sqrt (n : ℝ)) := by
  have hs1 : Nat.sqrt n * Nat.sqrt n ≤ n := Nat.sqrt_le n
  have hlow : ((Nat.sqrt n : Nat) : ℝ) ≤ Real.sqrt (n : ℝ) := Real.nat_sqrt_le_real_sqrt
  have hup : Real.sqrt (n : ℝ) < ((Nat.sqrt n : Nat) : ℝ) + 1 := Real.real_sqrt_lt_nat_sqrt_succ
  have hneg : ¬ ((n : Int) < 0) := by omega
  have hs0 : (0 : ℝ) ≤ ((Nat.sqrt n : Nat) : ℝ) := Nat.cast_nonneg _
  unfold roundSqrt
  rw [if_neg hneg]
  simp only [Int.toNat_ofNat, isqrt_eq]
  by_cases h : Nat.sqrt n * Nat.sqrt n + Nat.sqrt n < n
  · refine ⟨Nat.sqrt n + 1, by rw [if_pos h], ?_⟩
    rw [round_eq]
    symm
    rw [Int.floor_eq_iff]
    have hle : Nat.sqrt n * Nat.sqrt n + Nat.sqrt n + 1 ≤ n := h
    have hleR : ((Nat.sqrt n : Nat) : ℝ) * ((Nat.sqrt n : Nat) : ℝ) + ((Nat.sqrt n : Nat) : ℝ) + 1
        ≤ (n : ℝ) := by exact_mod_cast hle
    have hhalf : ((Nat.sqrt n : Nat) : ℝ) + 1 / 2 ≤ Real.sqrt (n : ℝ) := by
      apply Real.le_sqrt_of_sq_le
      nlinarith
    push_cast
    constructor <;> linarith
  · refine ⟨Nat.sqrt n, by rw [if_neg h], ?_⟩
    rw [round_eq]
    symm
    rw [Int.floor_eq_iff]
    have hle : n ≤ Nat.sqrt n * Nat.sqrt n + Nat.sqrt n := by omega
    have hleR : (n : ℝ) ≤ ((Nat.sqrt n : Nat) : ℝ) * ((Nat.sqrt n : Nat) : ℝ)
        + ((Nat.sqrt n : Nat) : ℝ) := by exact_mod_cast hle
    have hhalf : Real.sqrt (n : ℝ) < ((Nat.sqrt n : Nat) : ℝ) + 1 / 2 := by
      rw [Real.sqrt_lt' (by linarith)]
      nlinarith
    push_cast
    constructor <;> linarith

theorem cap255_eq_min (v : Int) : cap255 v = min 255 v := by
  unfold cap255
  split <;> omega

/-- The integer `edges` stores for the gradients `gx`, `gy`: the real square root of
`gx ^ 2 + gy ^ 2` rounded to the nearest integer and capped at 255; it is never negative. -/
theorem magnitude_spec (gx gy : Int) :
    ∃ v, magnitude gx gy = some v ∧
      v = min 255 (round (Real.sqrt ((gx : ℝ) ^ 2 + (gy : ℝ) ^ 2))) ∧ 0 ≤ v ∧ v ≤ 255 := by
  have hnn : 0 ≤ gx * gx + gy * gy := by nlinarith [mul_self_nonneg gx, mul_self_nonneg gy]
  obtain ⟨n, hn⟩ := Int.eq_ofNat_of_zero_le hnn
  obtain ⟨k, hk, hr⟩ := roundSqrt_natCast n
  have hR : (n : ℝ) = (gx : ℝ) ^ 2 + (gy : ℝ) ^ 2 := by
    have h1 : ((n : Int) : ℝ) = ((gx * gx + gy * gy : Int) : ℝ) := by rw [hn]
    push_cast at h1
    rw [h1]
    ring
  refine ⟨cap255 (k : Int), ?_, ?_, ?_, ?_⟩
  · unfold magnitude
    rw [hn, hk]
    rfl
  · rw [cap255_eq_min, hr, hR]
  · unfold cap255
    split <;> omega
  · unfold cap255
    split <;> omega

theorem edgesValues_spec {copy : Image} {height width : Nat} (hd : hasDims copy height width)
    (i j : Nat) :
    edgesValues height width copy i j =
      some (edgeValue Channel.red copy height width i j,
        edgeValue Channel.green copy height width i j,
        edgeValue Channel.blue copy height width i j) := by
  obtain ⟨r, hr, _⟩ := magnitude_spec (convolve Gx Channel.red copy height width i j)
    (convolve Gy Channel.red copy height width i j)
  obtain ⟨g, hg, _⟩ := magnitude_spec (convolve Gx Channel.green copy height width i j)
    (convolve Gy Channel.green copy height width i j)
  obtain ⟨b, hb, _⟩ := magnitude_spec (convolve Gx Channel.blue copy height width i j)
    (convolve Gy Channel.blue copy height width i j)
  unfold edgesValues edgeValue
  rw [sobelAt_spec hd i j]
  simp only [Option.bind, hr, hg, hb, Option.getD]

theorem edgeValue_spec (c : Channel) (G : Image) (height width i j : Nat) :
    edgeValue c G height width i j =
        min 255 (round (Real.sqrt ((convolve Gx c G height width i j : ℝ) ^ 2 +
          (convolve Gy c G height width i j : ℝ) ^ 2))) ∧
      0 ≤ edgeValue c G height width i j ∧ edgeValue c G height width i j ≤ 255 := by
  obtain ⟨v, hv, e, h0, h1⟩ := magnitude_spec (convolve Gx c G height width i j)
    (convolve Gy c G height width i j)
  unfold edgeValue
  rw [hv]
  exact ⟨e, h0, h1⟩

theorem edges_spec (height width : Nat) (image : Image) (hd : hasDims image height width) :
    ∃ out, edges height width image = some out ∧ hasDims out height width ∧
      ∀ a b, a < height → b < width →
        readPx out a b = some (edgesPixel image height width a b) := by
  obtain ⟨out, ho, hdo, hro⟩ := pixelLoops_spec height width
    (fun i j t => edgesBody height width image t i j)
    (fun i j _ => edgesPixel image height width i j)
    (by
      intro img i j p hdi hi hj hp
      obtain ⟨out, ho, hdo, hro⟩ := storeAll_spec hdi hi hj hp
        (edgeValue Channel.red image height width i j)
        (edgeValue Channel.green image height width i j)
        (edgeValue Channel.blue image height width i j)
      refine ⟨out, ?_, hdo, hro⟩
      simp only [edgesBody, edgesValues_spec hd i j, Option.bind]
      exact ho)
    image hd
  refine ⟨out, ?_, hdo, ?_⟩
  · unfold edges
    rw [copyImage_spec height width image hd]
    exact ho
  · intro a b ha hb
    obtain ⟨p, hp⟩ := readPx_some_of_lt hd ha hb
    rw [hro a b, hp]
    rfl

theorem edgesPixel_chan (G : Image) (height width i j : Nat) (c : Channel) :
    (((edgesPixel G height width i j).chan c : Nat) : Int) = edgeValue c G height width i j := by
  obtain ⟨_, h0, h1⟩ := edgeValue_spec c G height width i j
  have hv := toBYTE_val (edgeValue c G height width i j) h0 h1
  cases c <;> simp only [edgesPixel, RGBTRIPLE.chan] <;> omega

/-! ## Degenerate loops and the number of samples: lemmas -/

theorem inside_length (height width i j : Nat) (hi : i < height) (hj : j < width) :
    (inside height width i j offsets).length =
      (1 + (if 0 < i then 1 else 0) + (if i + 1 < height then 1 else 0)) *
      (1 + (if 0 < j then 1 else 0) + (if j + 1 < width then 1 else 0)) := by
  have a1 : (0 ≤ (i : Int) + -1) ↔ 0 < i := by omega
  have a2 : ((i : Int) + -1 < height) ↔ True := by simp; omega
  have a3 : (0 ≤ (i : Int) + 1) ↔ True := by simp; omega
  have a4 : ((i : Int) + 1 < height) ↔ i + 1 < height := by omega
  have a5 : ((i : Int) < height) ↔ True := by simp; omega
  have b1 : (0 ≤ (j : Int) + -1) ↔ 0 < j := by omega
  have b2 : ((j : Int) + -1 < width) ↔ True := by simp; omega
  have b3 : (0 ≤ (j : Int) + 1) ↔ True := by simp; omega
  have b4 : ((j : Int) + 1 < width) ↔ j + 1 < width := by omega
  have b5 : ((j : Int) < width) ↔ True := by simp; omega
  unfold inside
  rw [← List.countP_eq_length_filter]
  simp only [offsets, List.countP_cons, List.countP_nil, a1, a2, a3, a4, a5, b1, b2, b3, b4, b5,
    add_zero, Int.natCast_nonneg, true_and, and_true, Nat.cast_nonneg]
  by_cases h1 : 0 < i <;> by_cases h2 : i + 1 < height <;> by_cases h3 : 0 < j <;>
    by_cases h4 : j + 1 < width <;> simp [h1, h2, h3, h4]

theorem neighbours_length (height width i j : Nat) (hi : i < height) (hj : j < width) :
    (neighbours height width i j).length =
      (1 + (if 0 < i then 1 else 0) + (if i + 1 < height then 1 else 0)) *
      (1 + (if 0 < j then 1 else 0) + (if j + 1 < width then 1 else 0)) := by
  unfold neighbours positions
  rw [List.length_map]
  exact inside_length height width i j hi hj

theorem blurDivisor_eq {G : Image} {height width : Nat} (hd : hasDims G height width)
    (i j : Nat) :
    blurDivisor height width G i j = some (((neighbours height width i j).length : Nat) : Int) := by
  unfold blurDivisor
  rw [copyImage_spec height width G hd]
  simp only [Option.bind, blurAt_spec hd i j, Option.map]

/-! ## blur on constant images: lemmas -/

theorem readPx_mem {G : Image} {i j : Nat} {q : RGBTRIPLE} (h : readPx G i j = some q) :
    ∃ row ∈ G, q ∈ row := by
  unfold readPx at h
  cases hrow : G[i]? with
  | none => rw [hrow] at h; cases h
  | some row =>
    rw [hrow] at h
    exact ⟨row, List.getElem?_mem hrow, List.getElem?_mem h⟩

theorem readPx_const {G : Image} {p : RGBTRIPLE} (hc : isConstant G p) {height width : Nat}
    (hd : hasDims G height width) {i j : Nat} (hi : i < height) (hj : j < width) :
    readPx G i j = some p := by
  obtain ⟨q, hq⟩ := readPx_some_of_lt hd hi hj
  obtain ⟨row, hrow, hmem⟩ := readPx_mem hq
  rw [hq, hc row hrow q hmem]

theorem neighbours_inb {height width i j : Nat} {q : Nat × Nat}
    (hq : q ∈ neighbours height width i j) : q.1 < height ∧ q.2 < width := by
  unfold neighbours positions inside at hq
  rw [List.mem_map] at hq
  obtain ⟨d, hd, rfl⟩ := hq
  rw [List.mem_filter] at hd
  have h := of_decide_eq_true hd.2
  simp only
  omega

theorem chanSum_const {G : Image} {p : RGBTRIPLE} (hc : isConstant G p) {height width : Nat}
    (hd : hasDims G height width) (c : Channel) :
    ∀ ps : List (Nat × Nat), (∀ q ∈ ps, q.1 < height ∧ q.2 < width) →
      chanSum c G ps = ps.length * p.chan c := by
  intro ps
  induction ps with
  | nil => intro _; simp [chanSum]
  | cons q rest ih =>
    intro h
    have hq := h q (List.mem_cons_self q rest)
    have hr := ih (fun r hr => h r (List.mem_cons_of_mem q hr))
    have e : chanAt c G q = p.chan c := by
      unfold chanAt
      rw [readPx_const hc hd hq.1 hq.2]
    simp only [chanSum, List.map_cons, List.sum_cons, List.length_cons] at hr ⊢
    rw [hr, e]
    ring

theorem roundedMean_const (n v : Nat) (hn : 0 < n) : roundedMean (n * v) n = v := by
  unfold roundedMean
  have e : 2 * (n * v) + n = n + 2 * n * v := by ring
  rw [e, Nat.add_mul_div_left _ _ (by omega : 0 < 2 * n), Nat.div_eq_of_lt (by omega)]
  omega

theorem boxMean_const {G : Image} {p : RGBTRIPLE} (hc : isConstant G p) {height width : Nat}
    (hd : hasDims G height width) {i j : Nat} (hi : i < height) (hj : j < width)
    (c : Channel) : boxMean c G height width i j = p.chan c := by
  unfold boxMean
  rw [chanSum_const hc hd c _ (fun q hq => neighbours_inb hq)]
  exact roundedMean_const _ _ (neighbours_length_pos hi hj)

theorem blurPixel_const {G : Image} {p : RGBTRIPLE} (hc : isConstant G p) {height width : Nat}
    (hd : hasDims G height width) {i j : Nat} (hi : i < height) (hj : j < width) :
    blurPixel G height width i j = p := by
  unfold blurPixel
  rw [boxMean_const hc hd hi hj, boxMean_const hc hd hi hj, boxMean_const hc hd hi hj]
  have e1 := toBYTE_ofBYTE p.rgbtBlue
  have e2 := toBYTE_ofBYTE p.rgbtGreen
  have e3 := toBYTE_ofBYTE p.rgbtRed
  unfold ofBYTE at e1 e2 e3
  simp only [RGBTRIPLE.chan, e1, e2, e3]

theorem hasDims_one {G : Image} (hd : hasDims G 1 1) : ∃ p, G = [[p]] := by
  obtain ⟨hl, hr⟩ := hd
  match G, hl, hr with
  | [row], _, hr =>
    have h1 := hr row (List.mem_singleton.mpr rfl)
    match row, h1 with
    | [p], _ => exact ⟨p, rfl⟩

theorem blurValues_range (G : Image) {height width : Nat}
    {i j : Nat} (hi : i < height) (hj : j < width) (c : Channel) :
    0 ≤ ((boxMean c G height width i j : Nat) : Int) ∧
      ((boxMean c G height width i j : Nat) : Int) ≤ 255 ∧
      ofBYTE (toBYTE ((boxMean c G height width i j : Nat) : Int)) =
        ((boxMean c G height width i j : Nat) : Int) := by
  have h := boxMean_le c G hi hj
  have hv := toBYTE_val ((boxMean c G height width i j : Nat) : Int) (by omega) (by omega)
  unfold ofBYTE
  omega

/-! ## edges: bounds on the gradients -/

theorem convolveOver_eq_kernelSum (K : List (List Int)) (c : Channel) (G : Image)
    (height width i j : Nat) (offs : List (Int × Int)) :
    convolveOver K c G height width i j offs =
      kernelSum K (fun x y => valueAt c G height width ((i : Int) + x) ((j : Int) + y)) offs :=
  rfl

theorem kernelSum_Gx (f : Int → Int → Int) :
    kernelSum Gx f offsets =
      -f (-1) (-1) + f (-1) 1 - 2 * f 0 (-1) + 2 * f 0 1 - f 1 (-1) + f 1 1 := by
  simp [kernelSum, offsets, weight, kernelAt, Gx]
  ring

theorem kernelSum_Gy (f : Int → Int → Int) :
    kernelSum Gy f offsets =
      -f (-1) (-1) - 2 * f (-1) 0 - f (-1) 1 + f 1 (-1) + 2 * f 1 0 + f 1 1 := by
  simp [kernelSum, offsets, weight, kernelAt, Gy]
  ring

theorem kernelSum_take_bound (f : Int → Int → Int) (hf : ∀ x y, 0 ≤ f x y ∧ f x y ≤ 255)
    (k : Nat) :
    (-1020 ≤ kernelSum Gx f (offsets.take k) ∧ kernelSum Gx f (offsets.take k) ≤ 1020) ∧
    (-1020 ≤ kernelSum Gy f (offsets.take k) ∧ kernelSum Gy f (offsets.take k) ≤ 1020) := by
  have h1 := hf (-1) (-1)
  have h2 := hf (-1) 0
  have h3 := hf (-1) 1
  have h4 := hf 0 (-1)
  have h5 := hf 0 0
  have h6 := hf 0 1
  have h7 := hf 1 (-1)
  have h8 := hf 1 0
  have h9 := hf 1 1
  by_cases hk : k ≤ 9
  · interval_cases k <;>
      simp [kernelSum, offsets, weight, kernelAt, Gx, Gy] <;> omega
  · have e : offsets.take k = offsets := List.take_of_length_le (by simp [offsets]; omega)
    rw [e, kernelSum_Gx, kernelSum_Gy]
    omega

theorem valueAt_range (c : Channel) (G : Image) (height width : Nat) (a b : Int) :
    0 ≤ valueAt c G height width a b ∧ valueAt c G height width a b ≤ 255 := by
  unfold valueAt
  split
  · have h := chanAt_le c G (a.toNat, b.toNat)
    omega
  · omega

theorem convolveOver_take_bound (c : Channel) (G : Image) (height width i j k : Nat) :
    (-1020 ≤ convolveOver Gx c G height width i j (offsets.take k) ∧
      convolveOver Gx c G height width i j (offsets.take k) ≤ 1020) ∧
    (-1020 ≤ convolveOver Gy c G height width i j (offsets.take k) ∧
      convolveOver Gy c G height width i j (offsets.take k) ≤ 1020) := by
  rw [convolveOver_eq_kernelSum, convolveOver_eq_kernelSum]
  exact kernelSum_take_bound _ (fun x y => valueAt_range c G height width _ _) k

theorem convolve_bound (c : Channel) (G : Image) (height width i j : Nat) :
    (-1020 ≤ convolve Gx c G height width i j ∧ convolve Gx c G height width i j ≤ 1020) ∧
    (-1020 ≤ convolve Gy c G height width i j ∧ convolve Gy c G height width i j ≤ 1020) := by
  have h := convolveOver_take_bound c G height width i j 9
  have e : offsets.take 9 = offsets := rfl
  rw [e] at h
  exact h

/-- After any number `k` of iterations of the neighbour loops, the accumulators of `edges`
hold the exact partial sums, which lie between -1020 and 1020. -/
theorem edgesFold_take {copy : Image} {height width : Nat} (hd : hasDims copy height width)
    (i j k : Nat) :
    ∃ part, edgesFold height width copy i j (offsets.take k) ⟨0, 0, 0, 0, 0, 0⟩ = some part ∧
      part.within 1020 ∧ part.exactOver copy height width i j (offsets.take k) := by
  obtain ⟨acc, hf, e1, e2, e3, e4, e5, e6⟩ := edgesFold_spec hd i j (offsets.take k)
    ⟨0, 0, 0, 0, 0, 0⟩ 0 (fun d h => List.mem_of_mem_take h) (by simp [SobelAcc.within])
    (by
      have hl : (offsets.take k).length ≤ 9 := by
        rw [List.length_take]
        exact Nat.min_le_right _ _
      omega)
  simp only [zero_add] at e1 e2 e3 e4 e5 e6
  have br := convolveOver_take_bound Channel.red copy height width i j k
  have bg := convolveOver_take_bound Channel.green copy height width i j k
  have bb := convolveOver_take_bound Channel.blue copy height width i j k
  refine ⟨acc, hf, ?_, ⟨e1, e2, e3, e4, e5, e6⟩⟩
  unfold SobelAcc.within
  rw [e1, e2, e3, e4, e5, e6]
  exact ⟨br.1, bg.1, bb.1, br.2, bg.2, bb.2⟩

theorem squaresFit_of_bound (gx gy : Int) (hx : -1020 ≤ gx ∧ gx ≤ 1020)
    (hy : -1020 ≤ gy ∧ gy ≤ 1020) : squaresFit gx gy := by
  have h1 : 0 ≤ gx * gx := mul_self_nonneg gx
  have h2 : 0 ≤ gy * gy := mul_self_nonneg gy
  have h3 : gx * gx ≤ 1040400 := by nlinarith
  have h4 : gy * gy ≤ 1040400 := by nlinarith
  refine ⟨by omega, by decide, ?_⟩
  rw [wrapInt_of_range (gx * gx) (by omega) (by omega),
    wrapInt_of_range (gy * gy) (by omega) (by omega),
    wrapInt_of_range (gx * gx + gy * gy) (by omega) (by omega)]

/-! ## edges on constant images: lemmas -/

theorem valueAt_const {G : Image} {p : RGBTRIPLE} (hc : isConstant G p) {height width : Nat}
    (hd : hasDims G height width) (c : Channel) (a b : Int) :
    valueAt c G height width a b =
      if 0 ≤ a ∧ a < height ∧ 0 ≤ b ∧ b < width then (p.chan c : Int) else 0 := by
  unfold valueAt
  split
  · rename_i h
    unfold chanAt
    rw [readPx_const hc hd (by omega : a.toNat < height) (by omega : b.toNat < width)]
  · rfl

/-- The gradients of `edges` on a constant image, by the sides on which the pixel has
neighbours. -/
theorem convolve_const {G : Image} {p : RGBTRIPLE} (hc : isConstant G p) {height width : Nat}
    (hd : hasDims G height width) (c : Channel) {i j : Nat} (hi : i < height) (hj : j < width) :
    convolve Gx c G height width i j =
        (p.chan c : Int) * (2 + (if 0 < i then 1 else 0) + (if i + 1 < height then 1 else 0)) *
          ((if j + 1 < width then 1 else 0) - (if 0 < j then 1 else 0)) ∧
      convolve Gy c G height width i j =
        (p.chan c : Int) * (2 + (if 0 < j then 1 else 0) + (if j + 1 < width then 1 else 0)) *
          ((if i + 1 < height then 1 else 0) - (if 0 < i then 1 else 0)) := by
  have a1 : (0 ≤ (i : Int) + -1) ↔ 0 < i := by omega
  have a2 : ((i : Int) + -1 < height) ↔ True := by simp; omega
  have a3 : (0 ≤ (i : Int) + 1) ↔ True := by simp; omega
  have a4 : ((i : Int) + 1 < height) ↔ i + 1 < height := by omega
  have a5 : ((i : Int) < height) ↔ True := by simp; omega
  have b1 : (0 ≤ (j : Int) + -1) ↔ 0 < j := by omega
  have b2 : ((j : Int) + -1 < width) ↔ True := by simp; omega
  have b3 : (0 ≤ (j : Int) + 1) ↔ True := by simp; omega
  have b4 : ((j : Int) + 1 < width) ↔ j + 1 < width := by omega
  have b5 : ((j : Int) < width) ↔ True := by simp; omega
  unfold convolve
  rw [convolveOver_eq_kernelSum, convolveOver_eq_kernelSum, kernelSum_Gx, kernelSum_Gy]
  simp only [valueAt_const hc hd, a1, a2, a3, a4, a5, b1, b2, b3, b4, b5, add_zero,
    Int.natCast_nonneg, true_and, and_true, Nat.cast_nonneg]
  constructor <;> by_cases h1 : 0 < i <;> by_cases h2 : i + 1 < height <;>
    by_cases h3 : 0 < j <;> by_cases h4 : j + 1 < width <;>
    simp only [h1, h2, h3, h4, if_true, if_false, and_true, and_false, and_self] <;> ring

theorem magnitude_of_sq (gx gy : Int) (n : Nat) (h : gx * gx + gy * gy = ((n * n : Nat) : Int)) :
    magnitude gx gy = some (cap255 (n : Int)) := by
  unfold magnitude roundSqrt
  rw [h]
  have hneg : ¬ (((n * n : Nat) : Int) < 0) := by omega
  have hlt : ¬ (n * n + n < n * n) := by omega
  simp only [if_neg hneg, Int.toNat_ofNat, isqrt_eq, Nat.sqrt_eq, if_neg hlt, Option.map]

theorem magnitude_pos (gx gy : Int) (h : 1 ≤ gx * gx + gy * gy) :
    ∃ m, magnitude gx gy = some m ∧ 1 ≤ m := by
  obtain ⟨v, hv, e, _, _⟩ := magnitude_spec gx gy
  refine ⟨v, hv, ?_⟩
  have hR : (1 : ℝ) ≤ (gx : ℝ) ^ 2 + (gy : ℝ) ^ 2 := by
    have h1 : ((1 : Int) : ℝ) ≤ ((gx * gx + gy * gy : Int) : ℝ) := by exact_mod_cast h
    push_cast at h1
    nlinarith
  have hs : (1 : ℝ) ≤ Real.sqrt ((gx : ℝ) ^ 2 + (gy : ℝ) ^ 2) := by
    apply Real.le_sqrt_of_sq_le
    simpa using hR
  have hr : 1 ≤ round (Real.sqrt ((gx : ℝ) ^ 2 + (gy : ℝ) ^ 2)) := by
    rw [round_eq, Int.le_floor]
    push_cast
    linarith
  rw [e]
  omega

theorem edgesPixel_of_zero {G : Image} {height width i j : Nat}
    (h : ∀ c : Channel, convolve Gx c G height width i j = 0 ∧
      convolve Gy c G height width i j = 0) :
    edgesPixel G height width i j = rgb 0 0 0 := by
  have e : ∀ c : Channel, edgeValue c G height width i j = 0 := by
    intro c
    unfold edgeValue
    rw [(h c).1, (h c).2]
    rfl
  unfold edgesPixel
  rw [e, e, e]
  rfl

theorem edgesPixel_const_interior {G : Image} {p : RGBTRIPLE} (hc : isConstant G p)
    {height width : Nat} (hd : hasDims G height width) {i j : Nat}
    (hi0 : 0 < i) (hi1 : i + 1 < height) (hj0 : 0 < j) (hj1 : j + 1 < width) :
    edgesPixel G height width i j = rgb 0 0 0 := by
  apply edgesPixel_of_zero
  intro c
  obtain ⟨ex, ey⟩ := convolve_const hc hd c (by omega : i < height) (by omega : j < width)
  rw [ex, ey]
  simp only [hi0, hi1, hj0, hj1, if_true]
  constructor <;> ring

theorem edgesPixel_one {G : Image} {p : RGBTRIPLE} (hc : isConstant G p)
    (hd : hasDims G 1 1) : edgesPixel G 1 1 0 0 = rgb 0 0 0 := by
  apply edgesPixel_of_zero
  intro c
  obtain ⟨ex, ey⟩ := convolve_const hc hd c (by decide : 0 < 1) (by decide : 0 < 1)
  rw [ex, ey]
  simp

/-- The gradients of `edges` at a border pixel of a constant image with at least two rows
and two columns: `(0, ±4v)` or `(±4v, 0)` away from the corners, `(±3v, ±3v)` at a corner. -/
theorem convolve_const_border {G : Image} {p : RGBTRIPLE} (hc : isConstant G p)
    {height width : Nat} (hd : hasDims G height width) (hh : 2 ≤ height) (hw : 2 ≤ width)
    (c : Channel) {i j : Nat} (hi : i < height) (hj : j < width)
    (hb : onEdge height width i j = true) :
    (onCorner height width i j = false →
      convolve Gx c G height width i j * convolve Gx c G height width i j +
        convolve Gy c G height width i j * convolve Gy c G height width i j =
        (((4 * p.chan c) * (4 * p.chan c) : Nat) : Int)) ∧
    (onCorner height width i j = true →
      convolve Gx c G height width i j * convolve Gx c G height width i j =
        9 * ((p.chan c : Int) * (p.chan c : Int)) ∧
      convolve Gy c G height width i j * convolve Gy c G height width i j =
        9 * ((p.chan c : Int) * (p.chan c : Int))) := by
  obtain ⟨ex, ey⟩ := convolve_const hc hd c hi hj
  rw [ex, ey]
  simp only [onEdge, onCorner, Bool.or_eq_true, Bool.and_eq_true, decide_eq_true_eq,
    Bool.and_eq_false_iff, Bool.or_eq_false_iff, decide_eq_false_iff_not] at hb ⊢
  by_cases h1 : 0 < i <;> by_cases h2 : i + 1 < height <;> by_cases h3 : 0 < j <;>
    by_cases h4 : j + 1 < width <;>
    simp only [h1, h2, h3, h4, if_true, if_false] <;>
    first
    | (exfalso; omega)
    | (constructor
       · intro hcor
         first
         | (exfalso; omega)
         | (push_cast; ring)
       · intro hcor
         first
         | (exfalso; omega)
         | (constructor <;> ring))

theorem constImage_hasDims (height width : Nat) (p : RGBTRIPLE) :
    hasDims (constImage height width p) height width := by
  refine ⟨by simp [constImage], ?_⟩
  intro row hrow
  rw [List.eq_of_mem_replicate hrow, List.length_replicate]

theorem constImage_isConstant (height width : Nat) (p : RGBTRIPLE) :
    isConstant (constImage height width p) p := by
  intro row hrow q hq
  rw [List.eq_of_mem_replicate hrow] at hq
  exact List.eq_of_mem_replicate hq

theorem chan_rgb_zero (c : Channel) : (rgb 0 0 0).chan c = 0 := by
  cases c <;> rfl

theorem sqrt_eighteen_sq (v : ℝ) (hv : 0 ≤ v) :
    Real.sqrt (9 * (v * v) + 9 * (v * v)) = 3 * Real.sqrt 2 * v := by
  have h2 : Real.sqrt 2 ^ 2 = 2 := Real.sq_sqrt (by norm_num)
  have hs : (0 : ℝ) ≤ Real.sqrt 2 := Real.sqrt_nonneg 2
  have e : 9 * (v * v) + 9 * (v * v) = (3 * Real.sqrt 2 * v) ^ 2 := by
    have : (3 * Real.sqrt 2 * v) ^ 2 = 9 * Real.sqrt 2 ^ 2 * (v * v) := by ring
    rw [this, h2]
    ring
  rw [e, Real.sqrt_sq (by positivity)]

theorem edgeValue_border {G : Image} {p : RGBTRIPLE} (hc : isConstant G p)
    {height width : Nat} (hd : hasDims G height width) (hh : 2 ≤ height) (hw : 2 ≤ width)
    (c : Channel) (hv : 1 ≤ p.chan c) {i j : Nat} (hi : i < height) (hj : j < width)
    (hb : onEdge height width i j = true) :
    1 ≤ edgeValue c G height width i j ∧
    (onCorner height width i j = false →
      edgeValue c G height width i j = min 255 ((4 * p.chan c : Nat) : Int)) ∧
    (onCorner height width i j = true →
      edgeValue c G height width i j =
        min 255 (round (3 * Real.sqrt 2 * (p.chan c : ℝ)))) := by
  obtain ⟨hedge, hcorner⟩ := convolve_const_border hc hd hh hw c hi hj hb
  have hvv : (1 : Int) ≤ (p.chan c : Int) * (p.chan c : Int) := by
    have h1 : (1 : Int) ≤ (p.chan c : Int) := by exact_mod_cast hv
    nlinarith
  have hpos : 1 ≤ convolve Gx c G height width i j * convolve Gx c G height width i j +
      convolve Gy c G height width i j * convolve Gy c G height width i j := by
    cases hcor : onCorner height width i j with
    | false =>
      rw [hedge hcor]
      push_cast
      nlinarith
    | true =>
      obtain ⟨e1, e2⟩ := hcorner hcor
      rw [e1, e2]
      omega
  obtain ⟨m, hm, hm1⟩ := magnitude_pos _ _ hpos
  refine ⟨?_, ?_, ?_⟩
  · unfold edgeValue
    rw [hm]
    exact hm1
  · intro hcor
    unfold edgeValue
    rw [magnitude_of_sq _ _ _ (hedge hcor), cap255_eq_min]
    rfl
  · intro hcor
    obtain ⟨e1, e2⟩ := hcorner hcor
    rw [(edgeValue_spec c G height width i j).1]
    have eR : (convolve Gx c G height width i j : ℝ) ^ 2 +
        (convolve Gy c G height width i j : ℝ) ^ 2 =
        9 * ((p.chan c : ℝ) * (p.chan c : ℝ)) + 9 * ((p.chan c : ℝ) * (p.chan c : ℝ)) := by
      have r1 : ((convolve Gx c G height width i j * convolve Gx c G height width i j : Int) : ℝ)
          = ((9 * ((p.chan c : Int) * (p.chan c : Int)) : Int) : ℝ) := by rw [e1]
      have r2 : ((convolve Gy c G height width i j * convolve Gy c G height width i j : Int) : ℝ)
          = ((9 * ((p.chan c : Int) * (p.chan c : Int)) : Int) : ℝ) := by rw [e2]
      push_cast at r1 r2
      rw [sq, sq, r1, r2]
    rw [eR, sqrt_eighteen_sq _ (Nat.cast_nonneg _)]

/-! ## edges and reflect: lemmas -/

theorem valueAt_reflect {G R : Image} {height width : Nat}
    (hR : ∀ a b, a < height → b < width → readPx R a b = readPx G a (width - 1 - b))
    (c : Channel) (x y : Int) :
    valueAt c R height width x y = valueAt c G height width x ((width : Int) - 1 - y) := by
  unfold valueAt
  by_cases h : 0 ≤ x ∧ x < height ∧ 0 ≤ y ∧ y < width
  · have h2 : 0 ≤ x ∧ x < height ∧ 0 ≤ (width : Int) - 1 - y ∧ (width : Int) - 1 - y < width := by
      omega
    rw [if_pos h, if_pos h2]
    unfold chanAt
    simp only
    rw [hR x.toNat y.toNat (by omega) (by omega)]
    have e : width - 1 - y.toNat = ((width : Int) - 1 - y).toNat := by omega
    rw [e]
  · have h2 : ¬ (0 ≤ x ∧ x < height ∧ 0 ≤ (width : Int) - 1 - y ∧
        (width : Int) - 1 - y < width) := by omega
    rw [if_neg h, if_neg h2]

theorem kernelSum_flip (f : Int → Int → Int) :
    kernelSum Gx (fun x y => f x (-y)) offsets = -kernelSum Gx f offsets ∧
    kernelSum Gy (fun x y => f x (-y)) offsets = kernelSum Gy f offsets := by
  rw [kernelSum_Gx, kernelSum_Gx, kernelSum_Gy, kernelSum_Gy]
  simp only [neg_neg, neg_zero]
  constructor <;> ring

theorem convolve_reflect {G R : Image} {height width : Nat}
    (hR : ∀ a b, a < height → b < width → readPx R a b = readPx G a (width - 1 - b))
    (c : Channel) (i : Nat) {j : Nat} (hj : j < width) :
    convolve Gx c R height width i j = -convolve Gx c G height width i (width - 1 - j) ∧
    convolve Gy c R height width i j = convolve Gy c G height width i (width - 1 - j) := by
  have e : ((width - 1 - j : Nat) : Int) = (width : Int) - 1 - j := by omega
  have hf : (fun x y : Int => valueAt c R height width ((i : Int) + x) ((j : Int) + y)) =
      fun x y => (fun x1 y1 => valueAt c G height width ((i : Int) + x1)
        (((width - 1 - j : Nat) : Int) + y1)) x (-y) := by
    funext x y
    rw [valueAt_reflect hR, e]
    congr 1
    ring
  obtain ⟨h1, h2⟩ := kernelSum_flip (fun x1 y1 => valueAt c G height width ((i : Int) + x1)
    (((width - 1 - j : Nat) : Int) + y1))
  unfold convolve
  rw [convolveOver_eq_kernelSum, convolveOver_eq_kernelSum, convolveOver_eq_kernelSum,
    convolveOver_eq_kernelSum, hf]
  exact ⟨h1, h2⟩

theorem magnitude_neg (gx gy : Int) : magnitude (-gx) gy = magnitude gx gy := by
  unfold magnitude
  rw [neg_mul_neg]

theorem edgesPixel_reflect {G R : Image} {height width : Nat}
    (hR : ∀ a b, a < height → b < width → readPx R a b = readPx G a (width - 1 - b))
    (i : Nat) {j : Nat} (hj : j < width) :
    edgesPixel R height width i j = edgesPixel G height width i (width - 1 - j) := by
  have e : ∀ c : Channel,
      edgeValue c R height width i j = edgeValue c G height width i (width - 1 - j) := by
    intro c
    obtain ⟨h1, h2⟩ := convolve_reflect hR c i hj
    unfold edgeValue
    rw [h1, h2, magnitude_neg]
  unfold edgesPixel
  rw [e, e, e]

/-! ## Gray images: lemmas -/

theorem allGray_of_readPx {G : Image}
    (h : ∀ i j p, readPx G i j = some p → isGray p) : allGray G := by
  intro row hrow p hp
  obtain ⟨i, hi⟩ := List.getElem?_of_mem hrow
  obtain ⟨j, hj⟩ := List.getElem?_of_mem hp
  apply h i j p
  unfold readPx
  rw [hi]
  exact hj

theorem readPx_gray {G : Image} (hg : allGray G) {i j : Nat} {p : RGBTRIPLE}
    (h : readPx G i j = some p) : isGray p := by
  obtain ⟨row, hrow, hmem⟩ := readPx_mem h
  exact hg row hrow p hmem

theorem chan_gray {p : RGBTRIPLE} (hp : isGray p) (c : Channel) :
    p.chan c = p.chan Channel.red := by
  obtain ⟨h1, h2⟩ := hp
  cases c
  · rfl
  · simp only [RGBTRIPLE.chan, h1]
  · simp only [RGBTRIPLE.chan, h1, h2]

theorem chanAt_gray {G : Image} (hg : allGray G) (c : Channel) (q : Nat × Nat) :
    chanAt c G q = chanAt Channel.red G q := by
  unfold chanAt
  cases h : readPx G q.1 q.2 with
  | none => rfl
  | some p => exact chan_gray (readPx_gray hg h) c

theorem boxMean_gray {G : Image} (hg : allGray G) (c : Channel) (height width i j : Nat) :
    boxMean c G height width i j = boxMean Channel.red G height width i j := by
  have e : chanAt c G = chanAt Channel.red G := funext (chanAt_gray hg c)
  unfold boxMean chanSum
  rw [e]

theorem blurPixel_gray {G : Image} (hg : allGray G) (height width i j : Nat) :
    isGray (blurPixel G height width i j) := by
  unfold blurPixel isGray
  simp only
  rw [boxMean_gray hg Channel.green, boxMean_gray hg Channel.blue]
  exact ⟨rfl, rfl⟩

theorem edgeValue_gray {G : Image} (hg : allGray G) (c : Channel) (height width i j : Nat) :
    edgeValue c G height width i j = edgeValue Channel.red G height width i j := by
  have e : valueAt c G height width = valueAt Channel.red G height width := by
    funext a b
    unfold valueAt
    rw [chanAt_gray hg c]
  unfold edgeValue convolve convolveOver
  rw [e]

theorem edgesPixel_gray {G : Image} (hg : allGray G) (height width i j : Nat) :
    isGray (edgesPixel G height width i j) := by
  unfold edgesPixel isGray
  simp only
  rw [edgeValue_gray hg Channel.green, edgeValue_gray hg Channel.blue]
  exact ⟨rfl, rfl⟩

theorem grayPixel_isGray (p : RGBTRIPLE) : isGray (grayPixel p) := ⟨rfl, rfl⟩

theorem grayPixel_of_gray {p : RGBTRIPLE} (hp : isGray p) : grayPixel p = p := by
  obtain ⟨h1, h2⟩ := hp
  have hv : grayValue p = ofBYTE p.rgbtRed := by
    rw [grayValue_eq, ← h2, ← h1]
    have := ofBYTE_nonneg p.rgbtRed
    omega
  have e := toBYTE_ofBYTE p.rgbtRed
  unfold grayPixel
  rw [hv, e]
  cases p
  simp only at h1 h2 ⊢
  subst h1
  subst h2
  rfl

theorem grayscale_of_gray (height width : Nat) (G : Image) (hd : hasDims G height width)
    (hg : allGray G) : grayscale height width G = some G := by
  obtain ⟨out, ho, hdo, hro⟩ := grayscale_spec height width G hd
  rw [ho]
  congr 1
  apply image_ext hdo hd
  intro i j hi hj
  obtain ⟨p, hp⟩ := readPx_some_of_lt hd hi hj
  rw [hro i j, hp]
  simp only [Option.map]
  rw [grayPixel_of_gray (readPx_gray hg hp)]

/-- Each of the four filters, run on a gray image of the declared dimensions, succeeds with
a gray image of the same dimensions. -/
theorem gray_outputs (height width : Nat) (G : Image) (hd : hasDims G height width)
    (hg : allGray G) :
    (∃ out, grayscale height width G = some out ∧ hasDims out height width ∧ allGray out) ∧
    (∃ out, reflect height width G = some out ∧ hasDims out height width ∧ allGray out) ∧
    (∃ out, blur height width G = some out ∧ hasDims out height width ∧ allGray out) ∧
    (∃ out, edges height width G = some out ∧ hasDims out height width ∧ allGray out) := by
  obtain ⟨o2, h2, d2, r2⟩ := reflect_spec height width G hd
  obtain ⟨o3, h3, d3, r3⟩ := blur_spec height width G hd
  obtain ⟨o4, h4, d4, r4⟩ := edges_spec height width G hd
  refine ⟨⟨G, grayscale_of_gray height width G hd hg, hd, hg⟩, ⟨o2, h2, d2, ?_⟩,
    ⟨o3, h3, d3, ?_⟩, ⟨o4, h4, d4, ?_⟩⟩
  · apply allGray_of_readPx
    intro i j p hp
    obtain ⟨hi, hj⟩ := readPx_lt d2 hp
    rw [r2 i j hi hj] at hp
    exact readPx_gray hg hp
  · apply allGray_of_readPx
    intro i j p hp
    obtain ⟨hi, hj⟩ := readPx_lt d3 hp
    rw [r3 i j hi hj] at hp
    rw [← Option.some.inj hp]
    exact blurPixel_gray hg height width i j
  · apply allGray_of_readPx
    intro i j p hp
    obtain ⟨hi, hj⟩ := readPx_lt d4 hp
    rw [r4 i j hi hj] at hp
    rw [← Option.some.inj hp]
    exact edgesPixel_gray hg height width i j

theorem grayscale_allGray (height width : Nat) (X : Image) (hd : hasDims X height width) :
    ∃ out, grayscale height width X = some out ∧ hasDims out height width ∧ allGray out := by
  obtain ⟨out, ho, hdo, hro⟩ := grayscale_spec height width X hd
  refine ⟨out, ho, hdo, ?_⟩
  apply allGray_of_readPx
  intro i j p hp
  rw [hro i j] at hp
  cases hq : readPx X i j with
  | none => rw [hq] at hp; cases hp
  | some q =>
    rw [hq] at hp
    rw [← Option.some.inj hp]
    exact grayPixel_isGray q

/-! ## The declaration of the scratch copy: lemmas -/

theorem declareCopy_of_pos {height width : Nat} (hh : 0 < height) (hw : 0 < width) :
    declareCopy height width = some (blankCopy height width) := by
  unfold declareCopy
  rw [if_neg (by omega)]

/-- With at least one row and one column the declaration succeeds, and a call of `blur` or
`edges` is what `blur` or `edges` describes. -/
theorem call_of_pos {height width : Nat} (hh : 0 < height) (hw : 0 < width) (image : Image) :
    blurCall height width image = blur height width image ∧
    edgesCall height width image = edges height width image := by
  unfold blurCall edgesCall
  rw [declareCopy_of_pos hh hw]
  exact ⟨rfl, rfl⟩

/-! ## Claims -/

/-- C1: for an image of the declared dimensions, `grayscale` succeeds and every in-bounds
pixel with original channels `r`, `g`, `b` ends with its three channels equal to one value,
the quotient `(r + g + b) / 3` rounded to the nearest integer, which is
`(r + g + b + 1) / 3` in integer division. -/
theorem grayscale_pixel (height width : Nat) (image : Image)
    (hd : hasDims image height width) :
    ∃ out, grayscale height width image = some out ∧
      ∀ i j, i < height → j < width → ∀ p, readPx image i j = some p →
        ∃ gray : BYTE, readPx out i j = some ⟨gray, gray, gray⟩ ∧
          (gray.val : Int) =
            round (((p.rgbtRed.val + p.rgbtGreen.val + p.rgbtBlue.val : Nat) : ℚ) / 3) ∧
          gray.val = (p.rgbtRed.val + p.rgbtGreen.val + p.rgbtBlue.val + 1) / 3 := by
  obtain ⟨out, ho, _, hro⟩ := grayscale_spec height width image hd
  refine ⟨out, ho, ?_⟩
  intro i j _ _ p hp
  have hrange := grayValue_range p
  have hv := toBYTE_val (grayValue p) hrange.1 hrange.2
  refine ⟨toBYTE (grayValue p), ?_, ?_, ?_⟩
  · rw [hro, hp]
    rfl
  · rw [hv]
    exact grayValue_eq_round p
  · have e := grayValue_eq p
    unfold ofBYTE at e
    omega

/-- C1, on the 3x3 image with a pure red centre: the centre becomes (85, 85, 85) and the
other pixels stay black. -/
theorem grayscale_pixel_witness :
    hasDims redCentre 3 3 ∧
    (∃ out, grayscale 3 3 redCentre = some out ∧
      ∀ i j, i < 3 → j < 3 → ∀ p, readPx redCentre i j = some p →
        ∃ gray : BYTE, readPx out i j = some ⟨gray, gray, gray⟩ ∧
          (gray.val : Int) =
            round (((p.rgbtRed.val + p.rgbtGreen.val + p.rgbtBlue.val : Nat) : ℚ) / 3) ∧
          gray.val = (p.rgbtRed.val + p.rgbtGreen.val + p.rgbtBlue.val + 1) / 3) ∧
    grayscale 3 3 redCentre =
      some [[rgb 0 0 0, rgb 0 0 0, rgb 0 0 0],
            [rgb 0 0 0, rgb 85 85 85, rgb 0 0 0],
            [rgb 0 0 0, rgb 0 0 0, rgb 0 0 0]] :=
  ⟨by decide, grayscale_pixel 3 3 redCentre (by decide), by decide!⟩

/-- C6: `grayscale` is idempotent: on an image of the declared dimensions, running it on
its own output gives that output again. -/
theorem grayscale_idempotent (height width : Nat) (image : Image)
    (hd : hasDims image height width) :
    (grayscale height width image).bind (grayscale height width) =
      grayscale height width image := by
  obtain ⟨out, ho, hdo, hro⟩ := grayscale_spec height width image hd
  obtain ⟨out2, ho2, hdo2, hro2⟩ := grayscale_spec height width out hdo
  rw [ho]
  simp only [Option.bind]
  rw [ho2]
  congr 1
  apply image_ext hdo2 hdo
  intro i j _ _
  rw [hro2, hro]
  cases readPx image i j with
  | none => rfl
  | some p => simp [grayPixel_idem]

/-- C6, on the 3x3 image with a pure red centre. -/
theorem grayscale_idempotent_witness :
    hasDims redCentre 3 3 ∧
    (grayscale 3 3 redCentre).bind (grayscale 3 3) = grayscale 3 3 redCentre :=
  ⟨by decide, grayscale_idempotent 3 3 redCentre (by decide)⟩

/-- C2: on an image of the declared dimensions `reflect` succeeds, and the pixel at
`(i, j)` of its output is the pixel at `(i, width - 1 - j)` of its input. -/
theorem reflect_pixel (height width : Nat) (image : Image)
    (hd : hasDims image height width) :
    ∃ out, reflect height width image = some out ∧
      ∀ i j, i < height → j < width → readPx out i j = readPx image i (width - 1 - j) := by
  obtain ⟨out, ho, _, hro⟩ := reflect_spec height width image hd
  exact ⟨out, ho, hro⟩

/-- C2, on a 2x3 image of six different pixels. -/
theorem reflect_pixel_witness :
    hasDims sixPixels 2 3 ∧
    (∃ out, reflect 2 3 sixPixels = some out ∧
      ∀ i j, i < 2 → j < 3 → readPx out i j = readPx sixPixels i (3 - 1 - j)) ∧
    reflect 2 3 sixPixels =
      some [[rgb 7 8 9, rgb 4 5 6, rgb 1 2 3], [rgb 9 9 8, rgb 255 0 0, rgb 10 20 30]] :=
  ⟨by decide, reflect_pixel 2 3 sixPixels (by decide), by decide⟩

/-- C5: `reflect` is an involution: on an image of the declared dimensions (any height and
width, odd widths and the widths 0 and 1 included), reflecting twice gives the image back. -/
theorem reflect_involution (height width : Nat) (image : Image)
    (hd : hasDims image height width) :
    (reflect height width image).bind (reflect height width) = some image := by
  obtain ⟨out, ho, hdo, hro⟩ := reflect_spec height width image hd
  obtain ⟨out2, ho2, hdo2, hro2⟩ := reflect_spec height width out hdo
  rw [ho]
  simp only [Option.bind]
  rw [ho2]
  congr 1
  apply image_ext hdo2 hd
  intro i j hi hj
  rw [hro2 i j hi hj, hro i (width - 1 - j) hi (by omega)]
  congr 1
  omega

/-- C5, on a 2x3 image of six different pixels (odd width) and on images of width 0 and 1. -/
theorem reflect_involution_witness :
    hasDims sixPixels 2 3 ∧
    (reflect 2 3 sixPixels).bind (reflect 2 3) = some sixPixels ∧
    (reflect 2 0 [[], []]).bind (reflect 2 0) = some [[], []] ∧
    (reflect 2 1 [[rgb 1 2 3], [rgb 4 5 6]]).bind (reflect 2 1) =
      some [[rgb 1 2 3], [rgb 4 5 6]] :=
  ⟨by decide, reflect_involution 2 3 sixPixels (by decide),
    reflect_involution 2 0 [[], []] (by decide),
    reflect_involution 2 1 [[rgb 1 2 3], [rgb 4 5 6]] (by decide)⟩

/-- C3: on an image `G` of the declared dimensions `blur` succeeds, and each channel of the
output pixel at an in-bounds `(i, j)` is the mean of that channel of `G` itself over the
in-bounds positions `(i + di, j + dj)`, `di, dj ∈ {-1, 0, 1}`, rounded to the nearest
integer with halves up: `(2 * sum + count) / (2 * count)` in integer division, `count`
being the number of in-bounds positions. -/
theorem blur_pixel (height width : Nat) (G : Image) (hd : hasDims G height width) :
    ∃ out, blur height width G = some out ∧
      ∀ i j, i < height → j < width →
        ∃ q, readPx out i j = some q ∧
          ∀ c : Channel,
            q.chan c =
              (2 * chanSum c G (neighbours height width i j) +
                  (neighbours height width i j).length) /
                (2 * (neighbours height width i j).length) ∧
            (q.chan c : Int) =
              round ((chanSum c G (neighbours height width i j) : ℚ) /
                ((neighbours height width i j).length : ℚ)) := by
  obtain ⟨out, ho, _, hro⟩ := blur_spec height width G hd
  refine ⟨out, ho, ?_⟩
  intro i j hi hj
  refine ⟨blurPixel G height width i j, hro i j hi hj, ?_⟩
  intro c
  rw [blurPixel_chan G hi hj c]
  refine ⟨rfl, ?_⟩
  exact roundedMean_eq_round _ _ (neighbours_length_pos hi hj)

/-- C3, on a 2x3 image of six different pixels: the corner `(0, 0)` averages the four
pixels of its 2x2 block, e.g. red (1 + 4 + 10 + 255) / 4 = 67.5, stored as 68. -/
theorem blur_pixel_witness :
    hasDims sixPixels 2 3 ∧
    (∃ out, blur 2 3 sixPixels = some out ∧
      ∀ i j, i < 2 → j < 3 →
        ∃ q, readPx out i j = some q ∧
          ∀ c : Channel,
            q.chan c =
              (2 * chanSum c sixPixels (neighbours 2 3 i j) + (neighbours 2 3 i j).length) /
                (2 * (neighbours 2 3 i j).length) ∧
            (q.chan c : Int) =
              round ((chanSum c sixPixels (neighbours 2 3 i j) : ℚ) /
                ((neighbours 2 3 i j).length : ℚ))) ∧
    blur 2 3 sixPixels =
      some [[rgb 68 7 10, rgb 48 7 9, rgb 69 6 6], [rgb 68 7 10, rgb 48 7 9, rgb 69 6 6]] :=
  ⟨by decide, blur_pixel 2 3 sixPixels (by decide), by decide!⟩

/-- C4: on an image `G` of the declared dimensions `edges` succeeds, and each channel of the
output pixel at an in-bounds `(i, j)` is `min 255 (round (sqrt (gx ^ 2 + gy ^ 2)))`, where
`gx` and `gy` are the nine-term sums of that channel of `G` itself over the 3x3
neighbourhood of `(i, j)`, weighted by the kernels `Gx` and `Gy`, positions outside the
grid counting as 0. -/
theorem edges_pixel (height width : Nat) (G : Image) (hd : hasDims G height width) :
    ∃ out, edges height width G = some out ∧
      ∀ i j, i < height → j < width →
        ∃ q, readPx out i j = some q ∧
          ∀ c : Channel,
            (q.chan c : Int) =
              min 255 (round (Real.sqrt
                ((convolve [[-1, 0, 1], [-2, 0, 2], [-1, 0, 1]] c G height width i j : ℝ) ^ 2 +
                 (convolve [[-1, -2, -1], [0, 0, 0], [1, 2, 1]] c G height width i j : ℝ) ^ 2)))
    := by
  obtain ⟨out, ho, _, hro⟩ := edges_spec height width G hd
  refine ⟨out, ho, ?_⟩
  intro i j hi hj
  refine ⟨edgesPixel G height width i j, hro i j hi hj, ?_⟩
  intro c
  rw [edgesPixel_chan G height width i j c]
  exact (edgeValue_spec c G height width i j).1

/-- C4, on the 3x3 image whose column 0 is black and whose columns 1 and 2 are white:
at pixel `(0, 0)` the accumulators of `edges` end with `Gx = 765` and `Gy = 255` on every
channel, which are the zero-filled weighted sums. -/
theorem edges_pixel_witness :
    hasDims stepEdge 3 3 ∧
    (∃ out, edges 3 3 stepEdge = some out ∧
      ∀ i j, i < 3 → j < 3 →
        ∃ q, readPx out i j = some q ∧
          ∀ c : Channel,
            (q.chan c : Int) =
              min 255 (round (Real.sqrt
                ((convolve [[-1, 0, 1], [-2, 0, 2], [-1, 0, 1]] c stepEdge 3 3 i j : ℝ) ^ 2 +
                 (convolve [[-1, -2, -1], [0, 0, 0], [1, 2, 1]] c stepEdge 3 3 i j : ℝ) ^ 2))))
    ∧ sobelAt 3 3 stepEdge 0 0 = some ⟨765, 765, 765, 255, 255, 255⟩
    ∧ convolve Gx Channel.red stepEdge 3 3 0 0 = 765
    ∧ convolve Gx Channel.green stepEdge 3 3 0 0 = 765
    ∧ convolve Gx Channel.blue stepEdge 3 3 0 0 = 765
    ∧ convolve Gy Channel.red stepEdge 3 3 0 0 = 255
    ∧ convolve Gy Channel.green stepEdge 3 3 0 0 = 255
    ∧ convolve Gy Channel.blue stepEdge 3 3 0 0 = 255 :=
  ⟨by decide, edges_pixel 3 3 stepEdge (by decide), by decide, by decide, by decide, by decide,
    by decide, by decide, by decide⟩

/-- C7: on an image of the declared dimensions, the three integers that `edges` computes
for a pixel `(i, j)` and then stores, `cap255(round(sqrt(gx ^ 2 + gy ^ 2)))` for each
channel, all lie between 0 and 255: never above 255 and never negative. -/
theorem edges_values_range (height width : Nat) (G : Image) (hd : hasDims G height width)
    (i j : Nat) :
    ∃ copy v, copyImage height width G = some copy ∧
      edgesValues height width copy i j = some v ∧
      (0 ≤ v.1 ∧ v.1 ≤ 255) ∧ (0 ≤ v.2.1 ∧ v.2.1 ≤ 255) ∧ (0 ≤ v.2.2 ∧ v.2.2 ≤ 255) := by
  refine ⟨G, _, copyImage_spec height width G hd, edgesValues_spec hd i j, ?_, ?_, ?_⟩
  · exact (edgeValue_spec Channel.red G height width i j).2
  · exact (edgeValue_spec Channel.green G height width i j).2
  · exact (edgeValue_spec Channel.blue G height width i j).2

/-- C7, on the 2x2 black and white checkerboard: every channel of every output pixel is
capped to exactly 255 (at `(0, 0)` the gradients are 510 and 510, magnitude 721). -/
theorem edges_values_range_witness :
    hasDims checkerboard 2 2 ∧
    (∃ copy v, copyImage 2 2 checkerboard = some copy ∧
      edgesValues 2 2 copy 0 0 = some v ∧
      (0 ≤ v.1 ∧ v.1 ≤ 255) ∧ (0 ≤ v.2.1 ∧ v.2.1 ≤ 255) ∧ (0 ≤ v.2.2 ∧ v.2.2 ≤ 255)) ∧
    sobelAt 2 2 checkerboard 0 0 = some ⟨510, 510, 510, 510, 510, 510⟩ ∧
    roundSqrt (510 * 510 + 510 * 510) = some 721 ∧
    edgesValues 2 2 checkerboard 0 0 = some (255, 255, 255) ∧
    edges 2 2 checkerboard =
      some [[rgb 255 255 255, rgb 255 255 255], [rgb 255 255 255, rgb 255 255 255]] :=
  ⟨by decide, edges_values_range 2 2 checkerboard (by decide) 0 0,
    by decide, by decide, by decide, by decide⟩

/-- C8: each of `grayscale`, `reflect`, `blur` and `edges`, run on an image of `height`
rows of `width` pixels, succeeds with an image that has exactly `height` rows, every one of
exactly `width` pixels. -/
theorem dimensions_preserved (height width : Nat) (image : Image)
    (hd : hasDims image height width) :
    (∃ out, grayscale height width image = some out ∧
      out.length = height ∧ ∀ row ∈ out, row.length = width) ∧
    (∃ out, reflect height width image = some out ∧
      out.length = height ∧ ∀ row ∈ out, row.length = width) ∧
    (∃ out, blur height width image = some out ∧
      out.length = height ∧ ∀ row ∈ out, row.length = width) ∧
    (∃ out, edges height width image = some out ∧
      out.length = height ∧ ∀ row ∈ out, row.length = width) := by
  obtain ⟨o1, h1, d1, _⟩ := grayscale_spec height width image hd
  obtain ⟨o2, h2, d2, _⟩ := reflect_spec height width image hd
  obtain ⟨o3, h3, d3, _⟩ := blur_spec height width image hd
  obtain ⟨o4, h4, d4, _⟩ := edges_spec height width image hd
  exact ⟨⟨o1, h1, d1.1, d1.2⟩, ⟨o2, h2, d2.1, d2.2⟩, ⟨o3, h3, d3.1, d3.2⟩, ⟨o4, h4, d4.1, d4.2⟩⟩

/-- C8, on a 2x3 image of six different pixels. -/
theorem dimensions_preserved_witness :
    hasDims sixPixels 2 3 ∧
    ((∃ out, grayscale 2 3 sixPixels = some out ∧
      out.length = 2 ∧ ∀ row ∈ out, row.length = 3) ∧
    (∃ out, reflect 2 3 sixPixels = some out ∧
      out.length = 2 ∧ ∀ row ∈ out, row.length = 3) ∧
    (∃ out, blur 2 3 sixPixels = some out ∧
      out.length = 2 ∧ ∀ row ∈ out, row.length = 3) ∧
    (∃ out, edges 2 3 sixPixels = some out ∧
      out.length = 2 ∧ ∀ row ∈ out, row.length = 3)) :=
  ⟨by decide, dimensions_preserved 2 3 sixPixels (by decide)⟩

/-- C10 as stated fails: the single pixel of a 1x1 image is a corner, and `blur` divides
by 1 there, not by 4; the middle pixel of a 1x3 image lies on an edge and is no corner, and
`blur` divides by 3 there, not by 6. -/
theorem blur_divisor_counterexample :
    hasDims onePixel 1 1 ∧ onCorner 1 1 0 0 = true ∧ statedDivisor 1 1 0 0 = 4 ∧
    blurDivisor 1 1 onePixel 0 0 = some 1 ∧
    ¬ (blurDivisor 1 1 onePixel 0 0 = some ((statedDivisor 1 1 0 0 : Nat) : Int)) ∧
    hasDims oneRow 1 3 ∧ onCorner 1 3 0 1 = false ∧ onEdge 1 3 0 1 = true ∧
    statedDivisor 1 3 0 1 = 6 ∧ blurDivisor 1 3 oneRow 0 1 = some 3 := by
  decide

/-- C10, amended: on an image with at least two rows and at least two columns, the
divisor `blur` uses for an in-bounds pixel is 9 when the pixel touches no edge of the
grid, 6 when it lies on an edge but is not a corner, and 4 when it is a corner. -/
theorem blur_divisor (height width : Nat) (G : Image) (hd : hasDims G height width)
    (hh : 2 ≤ height) (hw : 2 ≤ width) (i j : Nat) (hi : i < height) (hj : j < width) :
    blurDivisor height width G i j = some ((statedDivisor height width i j : Nat) : Int) := by
  rw [blurDivisor_eq hd i j, neighbours_length height width i j hi hj]
  congr 2
  unfold statedDivisor onCorner onEdge
  simp only [Bool.and_eq_true, Bool.or_eq_true, decide_eq_true_eq]
  split_ifs <;> omega

/-- C10 amended, on the 3x3 image `stepEdge`: the centre divides by 9, the edge pixel
`(0, 1)` by 6 and the corner `(0, 0)` by 4. -/
theorem blur_divisor_witness :
    hasDims stepEdge 3 3 ∧ 2 ≤ 3 ∧
    blurDivisor 3 3 stepEdge 1 1 = some ((statedDivisor 3 3 1 1 : Nat) : Int) ∧
    blurDivisor 3 3 stepEdge 1 1 = some 9 ∧
    blurDivisor 3 3 stepEdge 0 1 = some 6 ∧
    blurDivisor 3 3 stepEdge 0 0 = some 4 :=
  ⟨by decide, by decide,
    blur_divisor 3 3 stepEdge (by decide) (by decide) (by decide) 1 1 (by decide) (by decide),
    by decide, by decide, by decide⟩

/-- C11: on an image of the declared dimensions, the three rounded means that `blur`
computes for an in-bounds pixel are integers between 0 and 255, so the conversion to the
8-bit channel on the store gives back the same number: nothing is lost and no clamp is
needed. -/
theorem blur_values_range (height width : Nat) (G : Image) (hd : hasDims G height width)
    (i j : Nat) (hi : i < height) (hj : j < width) :
    ∃ copy v, copyImage height width G = some copy ∧
      blurValues height width copy i j = some v ∧
      (0 ≤ v.1 ∧ v.1 ≤ 255 ∧ ofBYTE (toBYTE v.1) = v.1) ∧
      (0 ≤ v.2.1 ∧ v.2.1 ≤ 255 ∧ ofBYTE (toBYTE v.2.1) = v.2.1) ∧
      (0 ≤ v.2.2 ∧ v.2.2 ≤ 255 ∧ ofBYTE (toBYTE v.2.2) = v.2.2) :=
  ⟨G, _, copyImage_spec height width G hd, blurValues_spec hd hi hj,
    blurValues_range G hi hj Channel.red, blurValues_range G hi hj Channel.green,
    blurValues_range G hi hj Channel.blue⟩

/-- C11, on the all-white 2x2 image, where every mean is the largest possible, 255, and
on a corner of a 2x3 image of six different pixels. -/
theorem blur_values_range_witness :
    hasDims (constImage 2 2 (rgb 255 255 255)) 2 2 ∧
    (∃ copy v, copyImage 2 2 (constImage 2 2 (rgb 255 255 255)) = some copy ∧
      blurValues 2 2 copy 0 0 = some v ∧
      (0 ≤ v.1 ∧ v.1 ≤ 255 ∧ ofBYTE (toBYTE v.1) = v.1) ∧
      (0 ≤ v.2.1 ∧ v.2.1 ≤ 255 ∧ ofBYTE (toBYTE v.2.1) = v.2.1) ∧
      (0 ≤ v.2.2 ∧ v.2.2 ≤ 255 ∧ ofBYTE (toBYTE v.2.2) = v.2.2)) ∧
    blurValues 2 2 (constImage 2 2 (rgb 255 255 255)) 0 0 = some (255, 255, 255) ∧
    blurValues 2 3 sixPixels 0 0 = some (68, 7, 10) :=
  ⟨by decide,
    blur_values_range 2 2 (constImage 2 2 (rgb 255 255 255)) (by decide) 0 0 (by decide)
      (by decide),
    by decide!, by decide!⟩

/-- C12: on a constant-colour image, `blur` succeeds, divides by 9 at every interior pixel
(one not in the first or last row or column; there is one only when the image has at
least three rows and three columns), and leaves there exactly the colour of the image on
every channel. -/
theorem blur_constant_interior (height width : Nat) (G : Image) (p : RGBTRIPLE)
    (hd : hasDims G height width) (hc : isConstant G p)
    (i j : Nat) (hi0 : 0 < i) (hi1 : i + 1 < height) (hj0 : 0 < j) (hj1 : j + 1 < width) :
    ∃ out, blur height width G = some out ∧ readPx out i j = some p ∧
      blurDivisor height width G i j = some 9 := by
  have hi : i < height := by omega
  have hj : j < width := by omega
  obtain ⟨out, ho, _, hro⟩ := blur_spec height width G hd
  refine ⟨out, ho, ?_, ?_⟩
  · rw [hro i j hi hj, blurPixel_const hc hd hi hj]
  · rw [blurDivisor_eq hd i j, neighbours_length height width i j hi hj]
    simp [hi0, hi1, hj0, hj1]

/-- C12, on the 3x3 image of the colour (10, 20, 30), at its centre. -/
theorem blur_constant_interior_witness :
    hasDims (constImage 3 3 (rgb 10 20 30)) 3 3 ∧
    isConstant (constImage 3 3 (rgb 10 20 30)) (rgb 10 20 30) ∧
    (∃ out, blur 3 3 (constImage 3 3 (rgb 10 20 30)) = some out ∧
      readPx out 1 1 = some (rgb 10 20 30) ∧
      blurDivisor 3 3 (constImage 3 3 (rgb 10 20 30)) 1 1 = some 9) :=
  ⟨by decide, by decide,
    blur_constant_interior 3 3 (constImage 3 3 (rgb 10 20 30)) (rgb 10 20 30) (by decide)
      (by decide) 1 1 (by decide) (by decide) (by decide) (by decide)⟩

/-- C14: on a 1x1 image `blur` divides by 1 (the pixel itself is the only sample in
bounds) and returns the image unchanged. -/
theorem blur_one_pixel (G : Image) (hd : hasDims G 1 1) :
    blur 1 1 G = some G ∧ blurDivisor 1 1 G 0 0 = some 1 := by
  obtain ⟨p, hp⟩ := hasDims_one hd
  have hc : isConstant G p := by
    rw [hp]
    intro row hrow q hq
    rw [List.mem_singleton] at hrow
    rw [hrow, List.mem_singleton] at hq
    exact hq
  obtain ⟨out, ho, hdo, hro⟩ := blur_spec 1 1 G hd
  constructor
  · rw [ho]
    congr 1
    apply image_ext hdo hd
    intro i j hi hj
    rw [hro i j hi hj, blurPixel_const hc hd hi hj, readPx_const hc hd hi hj]
  · rw [blurDivisor_eq hd 0 0,
      neighbours_length 1 1 0 0 (by decide) (by decide)]
    rfl

/-- C14, on the 1x1 image of the colour (10, 20, 30). -/
theorem blur_one_pixel_witness :
    hasDims onePixel 1 1 ∧ blur 1 1 onePixel = some onePixel ∧
    blurDivisor 1 1 onePixel 0 0 = some 1 :=
  ⟨by decide, blur_one_pixel onePixel (by decide)⟩

/-- C17: on an image of the declared dimensions, for every in-bounds pixel (there is one
only when the image has at least one row and one column) the sample count of `blur` is at
least 1 when the division is made, the three divisions succeed, and the count is one of
1, 2, 3, 4, 6, 9. -/
theorem blur_count_positive (height width : Nat) (G : Image) (hd : hasDims G height width)
    (i j : Nat) (hi : i < height) (hj : j < width) :
    ∃ copy acc v, copyImage height width G = some copy ∧
      blurAt height width copy i j = some acc ∧ 1 ≤ acc.count ∧
      acc.count ∈ [1, 2, 3, 4, 6, 9] ∧
      blurValues height width copy i j = some v := by
  refine ⟨G, _, _, copyImage_spec height width G hd, blurAt_spec hd i j, ?_, ?_,
    blurValues_spec hd hi hj⟩
  · have h := neighbours_length_pos hi hj
    simp only
    omega
  · simp only
    rw [neighbours_length height width i j hi hj]
    by_cases h1 : 0 < i <;> by_cases h2 : i + 1 < height <;> by_cases h3 : 0 < j <;>
      by_cases h4 : j + 1 < width <;> simp [h1, h2, h3, h4]

/-- C17, on a 1x3 image: the middle pixel has the three samples of its row. -/
theorem blur_count_positive_witness :
    hasDims oneRow 1 3 ∧
    (∃ copy acc v, copyImage 1 3 oneRow = some copy ∧
      blurAt 1 3 copy 0 1 = some acc ∧ 1 ≤ acc.count ∧
      acc.count ∈ [1, 2, 3, 4, 6, 9] ∧
      blurValues 1 3 copy 0 1 = some v) ∧
    blurDivisor 1 3 oneRow 0 1 = some 3 :=
  ⟨by decide,
    blur_count_positive 1 3 oneRow (by decide) 0 1 (by decide) (by decide),
    by decide⟩

/-- C16: on an image of the declared dimensions, at every pixel the six accumulators of
`edges`, computed with 32-bit wrapping additions and multiplications, hold the exact
integer weighted sums after each iteration of the neighbour loops and at their end; these
sums lie between -1020 and 1020, and `gx * gx + gy * gy` is at most 2080800, below
`2 ^ 31`, so that it too is the same computed in 32-bit integers. -/
theorem edges_no_wrap (height width : Nat) (G : Image) (hd : hasDims G height width)
    (i j : Nat) :
    ∃ copy acc, copyImage height width G = some copy ∧
      sobelAt height width copy i j = some acc ∧
      acc.exactOver G height width i j offsets ∧ acc.within 1020 ∧
      (∀ k, ∃ part,
        edgesFold height width copy i j (offsets.take k) ⟨0, 0, 0, 0, 0, 0⟩ = some part ∧
        part.within 1020 ∧ part.exactOver G height width i j (offsets.take k)) ∧
      squaresFit acc.gxRed acc.gyRed ∧ squaresFit acc.gxGreen acc.gyGreen ∧
      squaresFit acc.gxBlue acc.gyBlue := by
  obtain ⟨acc, hf, hw, he⟩ := edgesFold_take hd i j 9
  have e : offsets.take 9 = offsets := rfl
  rw [e] at hf he
  obtain ⟨⟨a1, a2⟩, ⟨a3, a4⟩, ⟨a5, a6⟩, ⟨a7, a8⟩, ⟨a9, a10⟩, ⟨a11, a12⟩⟩ := hw
  refine ⟨G, acc, copyImage_spec height width G hd, ?_, he,
    ⟨⟨a1, a2⟩, ⟨a3, a4⟩, ⟨a5, a6⟩, ⟨a7, a8⟩, ⟨a9, a10⟩, ⟨a11, a12⟩⟩,
    fun k => edgesFold_take hd i j k,
    squaresFit_of_bound _ _ ⟨a1, a2⟩ ⟨a7, a8⟩, squaresFit_of_bound _ _ ⟨a3, a4⟩ ⟨a9, a10⟩,
    squaresFit_of_bound _ _ ⟨a5, a6⟩ ⟨a11, a12⟩⟩
  rw [sobelAt_eq_fold]
  exact hf

/-- C16, on the 3x3 image with a black column 0 and white columns 1 and 2: at `(1, 0)`
the horizontal gradient reaches the bound 1020. -/
theorem edges_no_wrap_witness :
    hasDims stepEdge 3 3 ∧
    (∃ copy acc, copyImage 3 3 stepEdge = some copy ∧
      sobelAt 3 3 copy 1 0 = some acc ∧
      acc.exactOver stepEdge 3 3 1 0 offsets ∧ acc.within 1020 ∧
      (∀ k, ∃ part,
        edgesFold 3 3 copy 1 0 (offsets.take k) ⟨0, 0, 0, 0, 0, 0⟩ = some part ∧
        part.within 1020 ∧ part.exactOver stepEdge 3 3 1 0 (offsets.take k)) ∧
      squaresFit acc.gxRed acc.gyRed ∧ squaresFit acc.gxGreen acc.gyGreen ∧
      squaresFit acc.gxBlue acc.gyBlue) ∧
    sobelAt 3 3 stepEdge 1 0 = some ⟨1020, 1020, 1020, 0, 0, 0⟩ :=
  ⟨by decide, edges_no_wrap 3 3 stepEdge (by decide) 1 0, by decide⟩

/-- C13: on a constant-colour image, `edges` succeeds and leaves exactly 0 on every
channel of every interior pixel (one not in the first or last row or column; there is one
only when the image has at least three rows and three columns). -/
theorem edges_constant_interior (height width : Nat) (G : Image) (p : RGBTRIPLE)
    (hd : hasDims G height width) (hc : isConstant G p)
    (i j : Nat) (hi0 : 0 < i) (hi1 : i + 1 < height) (hj0 : 0 < j) (hj1 : j + 1 < width) :
    ∃ out q, edges height width G = some out ∧ readPx out i j = some q ∧
      ∀ c : Channel, q.chan c = 0 := by
  obtain ⟨out, ho, _, hro⟩ := edges_spec height width G hd
  refine ⟨out, rgb 0 0 0, ho, ?_, chan_rgb_zero⟩
  rw [hro i j (by omega) (by omega), edgesPixel_const_interior hc hd hi0 hi1 hj0 hj1]

/-- C13, on the 3x3 image of the colour (10, 20, 30), at its centre. -/
theorem edges_constant_interior_witness :
    hasDims (constImage 3 3 (rgb 10 20 30)) 3 3 ∧
    isConstant (constImage 3 3 (rgb 10 20 30)) (rgb 10 20 30) ∧
    (∃ out q, edges 3 3 (constImage 3 3 (rgb 10 20 30)) = some out ∧
      readPx out 1 1 = some q ∧ ∀ c : Channel, q.chan c = 0) ∧
    (edges 3 3 (constImage 3 3 (rgb 10 20 30))).bind (fun out => readPx out 1 1) =
      some (rgb 0 0 0) :=
  ⟨by decide, by decide,
    edges_constant_interior 3 3 (constImage 3 3 (rgb 10 20 30)) (rgb 10 20 30) (by decide)
      (by decide) 1 1 (by decide) (by decide) (by decide) (by decide),
    by decide⟩

/-- C15: on a 1x1 image, whatever its colour, `edges` succeeds and sets the single pixel
to 0 on every channel: the only sample in bounds is the centre, whose weight is 0 in both
kernels. -/
theorem edges_one_pixel (G : Image) (hd : hasDims G 1 1) :
    edges 1 1 G = some [[rgb 0 0 0]] ∧
    ∃ copy, copyImage 1 1 G = some copy ∧
      sobelAt 1 1 copy 0 0 = some ⟨0, 0, 0, 0, 0, 0⟩ := by
  obtain ⟨p, hp⟩ := hasDims_one hd
  have hc : isConstant G p := by
    rw [hp]
    intro row hrow q hq
    rw [List.mem_singleton] at hrow
    rw [hrow, List.mem_singleton] at hq
    exact hq
  obtain ⟨out, ho, hdo, hro⟩ := edges_spec 1 1 G hd
  have hz : ∀ c : Channel, convolve Gx c G 1 1 0 0 = 0 ∧ convolve Gy c G 1 1 0 0 = 0 := by
    intro c
    obtain ⟨ex, ey⟩ := convolve_const hc hd c (by decide : 0 < 1) (by decide : 0 < 1)
    rw [ex, ey]
    simp
  constructor
  · rw [ho]
    congr 1
    apply image_ext hdo (by decide : hasDims [[rgb 0 0 0]] 1 1)
    intro i j hi hj
    have hi0 : i = 0 := by omega
    have hj0 : j = 0 := by omega
    subst hi0
    subst hj0
    rw [hro 0 0 hi hj, edgesPixel_of_zero hz]
    rfl
  · refine ⟨G, copyImage_spec 1 1 G hd, ?_⟩
    rw [sobelAt_spec hd 0 0, (hz Channel.red).1, (hz Channel.green).1, (hz Channel.blue).1,
      (hz Channel.red).2, (hz Channel.green).2, (hz Channel.blue).2]

/-- C15, on the 1x1 image of the colour (10, 20, 30). -/
theorem edges_one_pixel_witness :
    hasDims onePixel 1 1 ∧
    (edges 1 1 onePixel = some [[rgb 0 0 0]] ∧
      ∃ copy, copyImage 1 1 onePixel = some copy ∧
        sobelAt 1 1 copy 0 0 = some ⟨0, 0, 0, 0, 0, 0⟩) :=
  ⟨by decide, edges_one_pixel onePixel (by decide)⟩

/-- C19: on a constant-colour image with at least two rows and two columns whose colour
has a value `v ≥ 1` on some channel, `edges` succeeds and its output on that channel is
non-zero at every pixel of the first or last row or column: `min 255 (4 * v)` at such a
pixel that is no corner, `min 255 (round (3 * sqrt 2 * v))` at a corner. So the output
is not the all-black image. -/
theorem edges_uniform_border (height width : Nat) (G : Image) (p : RGBTRIPLE)
    (hd : hasDims G height width) (hc : isConstant G p) (hh : 2 ≤ height) (hw : 2 ≤ width)
    (c : Channel) (hv : 1 ≤ p.chan c) :
    ∃ out, edges height width G = some out ∧
      (∀ i j, i < height → j < width → onEdge height width i j = true →
        ∃ q, readPx out i j = some q ∧ q.chan c ≠ 0 ∧
          (onCorner height width i j = false → q.chan c = min 255 (4 * p.chan c)) ∧
          (onCorner height width i j = true →
            (q.chan c : Int) = min 255 (round (3 * Real.sqrt 2 * (p.chan c : ℝ))))) ∧
      out ≠ constImage height width (rgb 0 0 0) := by
  obtain ⟨out, ho, _, hro⟩ := edges_spec height width G hd
  have hborder : ∀ i j, i < height → j < width → onEdge height width i j = true →
      ∃ q, readPx out i j = some q ∧ q.chan c ≠ 0 ∧
        (onCorner height width i j = false → q.chan c = min 255 (4 * p.chan c)) ∧
        (onCorner height width i j = true →
          (q.chan c : Int) = min 255 (round (3 * Real.sqrt 2 * (p.chan c : ℝ)))) := by
    intro i j hi hj hb
    obtain ⟨h1, h2, h3⟩ := edgeValue_border hc hd hh hw c hv hi hj hb
    have hq := edgesPixel_chan G height width i j c
    refine ⟨edgesPixel G height width i j, hro i j hi hj, ?_, ?_, ?_⟩
    · omega
    · intro hcor
      have e := h2 hcor
      omega
    · intro hcor
      rw [hq]
      exact h3 hcor
  refine ⟨out, ho, hborder, ?_⟩
  intro heq
  obtain ⟨q, hq, hne, _, _⟩ := hborder 0 0 (by omega) (by omega) (by simp [onEdge])
  rw [heq, readPx_const (constImage_isConstant height width (rgb 0 0 0))
    (constImage_hasDims height width (rgb 0 0 0)) (by omega : 0 < height)
    (by omega : 0 < width)] at hq
  have e : q = rgb 0 0 0 := (Option.some.inj hq).symm
  rw [e, chan_rgb_zero] at hne
  exact hne rfl

/-- C19, on the 3x3 image of the colour (10, 20, 30) and its red channel: the centre is
black, the four edge pixels away from the corners hold 40 and the corners hold 42. -/
theorem edges_uniform_border_witness :
    hasDims (constImage 3 3 (rgb 10 20 30)) 3 3 ∧
    isConstant (constImage 3 3 (rgb 10 20 30)) (rgb 10 20 30) ∧
    (∃ out, edges 3 3 (constImage 3 3 (rgb 10 20 30)) = some out ∧
      (∀ i j, i < 3 → j < 3 → onEdge 3 3 i j = true →
        ∃ q, readPx out i j = some q ∧ q.chan Channel.red ≠ 0 ∧
          (onCorner 3 3 i j = false →
            q.chan Channel.red = min 255 (4 * (rgb 10 20 30).chan Channel.red)) ∧
          (onCorner 3 3 i j = true →
            (q.chan Channel.red : Int) =
              min 255 (round (3 * Real.sqrt 2 * ((rgb 10 20 30).chan Channel.red : ℝ))))) ∧
      out ≠ constImage 3 3 (rgb 0 0 0)) ∧
    edges 3 3 (constImage 3 3 (rgb 10 20 30)) =
      some [[rgb 42 85 127, rgb 40 80 120, rgb 42 85 127],
            [rgb 40 80 120, rgb 0 0 0, rgb 40 80 120],
            [rgb 42 85 127, rgb 40 80 120, rgb 42 85 127]] :=
  ⟨by decide, by decide,
    edges_uniform_border 3 3 (constImage 3 3 (rgb 10 20 30)) (rgb 10 20 30) (by decide)
      (by decide) (by decide) (by decide) Channel.red (by decide),
    by decide⟩

/-- C18: `edges` commutes with `reflect`: on an image of the declared dimensions,
reflecting and then detecting edges gives the same image as detecting edges and then
reflecting. -/
theorem edges_reflect_commute (height width : Nat) (G : Image)
    (hd : hasDims G height width) :
    (reflect height width G).bind (edges height width) =
      (edges height width G).bind (reflect height width) := by
  obtain ⟨R, hR, hdR, hrR⟩ := reflect_spec height width G hd
  obtain ⟨E1, hE1, hdE1, hrE1⟩ := edges_spec height width R hdR
  obtain ⟨E, hE, hdE, hrE⟩ := edges_spec height width G hd
  obtain ⟨R2, hR2, hdR2, hrR2⟩ := reflect_spec height width E hdE
  rw [hR, hE]
  simp only [Option.bind]
  rw [hE1, hR2]
  congr 1
  apply image_ext hdE1 hdR2
  intro i j hi hj
  rw [hrE1 i j hi hj, hrR2 i j hi hj, hrE i (width - 1 - j) hi (by omega),
    edgesPixel_reflect hrR i hj]

/-- C18, on a 2x3 image of six different pixels; both sides are the image shown. -/
theorem edges_reflect_commute_witness :
    hasDims sixPixels 2 3 ∧
    (reflect 2 3 sixPixels).bind (edges 2 3) = (edges 2 3 sixPixels).bind (reflect 2 3) ∧
    (reflect 2 3 sixPixels).bind (edges 2 3) =
      some [[rgb 255 21 20, rgb 255 29 39, rgb 255 41 61],
            [rgb 255 22 25, rgb 16 26 45, rgb 255 10 13]] :=
  ⟨by decide, edges_reflect_commute 2 3 sixPixels (by decide), by decide⟩

/-- C20: gray images are closed under every operation: on an image of the declared
dimensions in which every pixel has red = green = blue, each of `grayscale`, `reflect`,
`blur` and `edges` succeeds with an image in which every pixel has red = green = blue
again, and `grayscale` leaves the outputs of `blur` and `edges` as they are. Hence for
every image `X` of these dimensions, gray or not, `grayscale` after `blur` after
`grayscale` is `blur` after `grayscale`, and likewise for `edges`. -/
theorem gray_images_closed (height width : Nat) (G : Image) (hd : hasDims G height width)
    (hg : allGray G) :
    (∃ out, grayscale height width G = some out ∧ allGray out) ∧
    (∃ out, reflect height width G = some out ∧ allGray out) ∧
    (∃ out, blur height width G = some out ∧ allGray out) ∧
    (∃ out, edges height width G = some out ∧ allGray out) ∧
    (blur height width G).bind (grayscale height width) = blur height width G ∧
    (edges height width G).bind (grayscale height width) = edges height width G ∧
    (∀ X, hasDims X height width →
      ((grayscale height width X).bind (blur height width)).bind (grayscale height width) =
        (grayscale height width X).bind (blur height width)) ∧
    (∀ X, hasDims X height width →
      ((grayscale height width X).bind (edges height width)).bind (grayscale height width) =
        (grayscale height width X).bind (edges height width)) := by
  obtain ⟨⟨o1, h1, _, g1⟩, ⟨o2, h2, _, g2⟩, ⟨o3, h3, d3, g3⟩, ⟨o4, h4, d4, g4⟩⟩ :=
    gray_outputs height width G hd hg
  refine ⟨⟨o1, h1, g1⟩, ⟨o2, h2, g2⟩, ⟨o3, h3, g3⟩, ⟨o4, h4, g4⟩, ?_, ?_, ?_, ?_⟩
  · rw [h3]
    exact grayscale_of_gray height width o3 d3 g3
  · rw [h4]
    exact grayscale_of_gray height width o4 d4 g4
  · intro X hX
    obtain ⟨Y, hY, dY, gY⟩ := grayscale_allGray height width X hX
    obtain ⟨_, _, ⟨b, hb, db, gb⟩, _⟩ := gray_outputs height width Y dY gY
    rw [hY]
    simp only [Option.bind]
    rw [hb]
    exact grayscale_of_gray height width b db gb
  · intro X hX
    obtain ⟨Y, hY, dY, gY⟩ := grayscale_allGray height width X hX
    obtain ⟨_, _, _, ⟨e, he, de, ge⟩⟩ := gray_outputs height width Y dY gY
    rw [hY]
    simp only [Option.bind]
    rw [he]
    exact grayscale_of_gray height width e de ge

/-- C20, on a 2x3 image of six different gray pixels, with the outputs of `blur` and
`edges` on it. -/
theorem gray_images_closed_witness :
    hasDims sixGrays 2 3 ∧ allGray sixGrays ∧
    ((∃ out, grayscale 2 3 sixGrays = some out ∧ allGray out) ∧
    (∃ out, reflect 2 3 sixGrays = some out ∧ allGray out) ∧
    (∃ out, blur 2 3 sixGrays = some out ∧ allGray out) ∧
    (∃ out, edges 2 3 sixGrays = some out ∧ allGray out) ∧
    (blur 2 3 sixGrays).bind (grayscale 2 3) = blur 2 3 sixGrays ∧
    (edges 2 3 sixGrays).bind (grayscale 2 3) = edges 2 3 sixGrays ∧
    (∀ X, hasDims X 2 3 →
      ((grayscale 2 3 X).bind (blur 2 3)).bind (grayscale 2 3) =
        (grayscale 2 3 X).bind (blur 2 3)) ∧
    (∀ X, hasDims X 2 3 →
      ((grayscale 2 3 X).bind (edges 2 3)).bind (grayscale 2 3) =
        (grayscale 2 3 X).bind (edges 2 3))) ∧
    blur 2 3 sixGrays =
      some [[rgb 99 99 99, rgb 69 69 69, rgb 78 78 78],
            [rgb 99 99 99, rgb 69 69 69, rgb 78 78 78]] ∧
    edges 2 3 sixGrays =
      some [[rgb 255 255 255, rgb 255 255 255, rgb 255 255 255],
            [rgb 255 255 255, rgb 197 197 197, rgb 255 255 255]] :=
  ⟨by decide, by decide, gray_images_closed 2 3 sixGrays (by decide) (by decide),
    by decide!, by decide⟩

end Helpers
